import Mathlib

/-!
Verification development for the Markdown serializer pipeline of
`src/components/EditorWidgets/Markdown/serializers/index.js`.

The pipeline converts between three representations of a document:
a markdown string, an MDAST syntax tree, and a Slate rich-document
model (blocks / inlines / text leaves carrying style marks).

Strings are modelled as Lean `String`s and are manipulated through
their underlying `List Char`; machine-level details (JavaScript
regexes, base64, UTF-8) are modelled explicitly below.  The code of
`index.js` (the `:::`-block pre/post rewrites, the base64 wrappers,
the pipeline composition and the final `trimEnd`) is translated
directly; the remark/slate plugin files that `index.js` imports are
not part of the source snapshot and are modelled from the
specification, as marked by their doc comments.
-/

namespace MdSer

/-- Whitespace test of the JavaScript regex class `\s`, which is
also the character set `lodash.trimEnd` strips: the ASCII whitespace
characters together with the Unicode space separators (no-break
space, ogham space mark, the en-quad..hair-space range, narrow
no-break space, medium mathematical space, ideographic space), the
line and paragraph separators, and the byte-order mark. -/
def isWS (c : Char) : Bool :=
  c = ' ' || c = '\t' || c = '\n' || c = '\r' || c = '\x0b' || c = '\x0c' ||
  c = '\u00A0' || c = '\u1680' || ('\u2000' ≤ c && c ≤ '\u200A') ||
  c = '\u2028' || c = '\u2029' || c = '\u202F' || c = '\u205F' ||
  c = '\u3000' || c = '\uFEFF'

/-- The base64 alphabet, as a list of characters; index `n` holds the
digit with value `n`. -/
def b64Table : List Char :=
  [ 'A', 'B', 'C', 'D', 'E', 'F', 'G', 'H', 'I', 'J', 'K', 'L', 'M',
    'N', 'O', 'P', 'Q', 'R', 'S', 'T', 'U', 'V', 'W', 'X', 'Y', 'Z',
    'a', 'b', 'c', 'd', 'e', 'f', 'g', 'h', 'i', 'j', 'k', 'l', 'm',
    'n', 'o', 'p', 'q', 'r', 's', 't', 'u', 'v', 'w', 'x', 'y', 'z',
    '0', '1', '2', '3', '4', '5', '6', '7', '8', '9', '+', '/' ]

/-- Base64 digit character for a sextet value. -/
def b64Char (n : Nat) : Char := b64Table.getD n 'A'

/-- Value of a base64 digit character, `none` for characters outside
the alphabet (including `=`). -/
def b64Val (c : Char) : Option Nat := b64Table.findIdx? (· = c)

/-- Base64-encode a byte list (values `< 256`), with `=` padding,
as produced by both `Buffer.toString('base64')` and `window.btoa`. -/
def b64EncodeBytes : List Nat → List Char
  | [] => []
  | [b0] => [b64Char (b0 / 4), b64Char (b0 % 4 * 16), '=', '=']
  | [b0, b1] =>
      [b64Char (b0 / 4), b64Char (b0 % 4 * 16 + b1 / 16), b64Char (b1 % 16 * 4), '=']
  | b0 :: b1 :: b2 :: rest =>
      b64Char (b0 / 4) :: b64Char (b0 % 4 * 16 + b1 / 16) ::
      b64Char (b1 % 16 * 4 + b2 / 64) :: b64Char (b2 % 64) :: b64EncodeBytes rest

/-- Repack a list of sextet values into bytes: each group of four
sextets yields three bytes, a trailing group of three sextets two
bytes, of two sextets one byte, and a single leftover sextet none.
This is the grouping used by both Node's and the browser's decoder. -/
def b64Unsextet : List Nat → List Nat
  | s0 :: s1 :: s2 :: s3 :: rest =>
      (s0 * 4 + s1 / 16) :: (s1 % 16 * 16 + s2 / 4) :: (s2 % 4 * 64 + s3) :: b64Unsextet rest
  | [s0, s1, s2] => [s0 * 4 + s1 / 16, s1 % 16 * 16 + s2 / 4]
  | [s0, s1] => [s0 * 4 + s1 / 16]
  | _ => []

/-- Node-style lenient base64 decoding of a character list to bytes:
characters outside the alphabet (including `=` padding) are ignored,
as `Buffer.from(str, 'base64')` does.  This decoder never fails. -/
def b64DecodeBytes (cs : List Char) : List Nat :=
  b64Unsextet (cs.filterMap b64Val)

/-- Strip up to two trailing `=` characters, as the browser's
forgiving-base64 decoder does when the input length is a multiple of
four. -/
def b64StripPad (cs : List Char) : List Char :=
  match cs.reverse with
  | '=' :: '=' :: rest => rest.reverse
  | '=' :: rest => rest.reverse
  | _ => cs

/-- The WHATWG "ASCII whitespace" set stripped by forgiving-base64
decoding (tab, line feed, form feed, carriage return, space) —
narrower than the regex class `\s` modelled by `isWS`. -/
def isB64WS (c : Char) : Bool :=
  c = ' ' || c = '\t' || c = '\n' || c = '\x0c' || c = '\r'

/-- Browser `window.atob` semantics (WHATWG forgiving-base64 decode):
ASCII whitespace is stripped; trailing `=` padding is stripped when
the length is a multiple of four; the decode then fails — the real
function throws `InvalidCharacterError` — when the remaining length
is `1 (mod 4)` or when any remaining character is outside the base64
alphabet. -/
def atobBytes (cs : List Char) : Option (List Nat) :=
  let data := cs.filter (fun c => !(isB64WS c))
  let data := if data.length % 4 = 0 then b64StripPad data else data
  if data.length % 4 = 1 then none
  else if data.all (fun c => (b64Val c).isSome) then
    some (b64Unsextet (data.filterMap b64Val))
  else none

/-- UTF-8 encoding of one character (code point) as bytes. -/
def utf8Char (c : Char) : List Nat :=
  let n := c.toNat
  if n < 128 then [n]
  else if n < 2048 then [192 + n / 64, 128 + n % 64]
  else if n < 65536 then [224 + n / 4096, 128 + n / 64 % 64, 128 + n % 64]
  else [240 + n / 262144, 128 + n / 4096 % 64, 128 + n / 64 % 64, 128 + n % 64]

/-- UTF-8 encoding of a character list. -/
def utf8Bytes (cs : List Char) : List Nat :=
  cs.foldr (fun c acc => utf8Char c ++ acc) []

/-- UTF-8 decoding of a byte list back to characters (fuel-driven;
ill-formed sequences fall back to the replacement character, which
never arises on the encoder's output). -/
def utf8DecodeLoop : Nat → List Nat → List Char
  | 0, _ => []
  | _ + 1, [] => []
  | f + 1, b :: rest =>
      if b < 128 then Char.ofNat b :: utf8DecodeLoop f rest
      else if b < 224 then
        match rest with
        | b1 :: r => Char.ofNat ((b - 192) * 64 + (b1 - 128)) :: utf8DecodeLoop f r
        | [] => []
      else if b < 240 then
        match rest with
        | b1 :: b2 :: r =>
            Char.ofNat ((b - 224) * 4096 + (b1 - 128) * 64 + (b2 - 128)) :: utf8DecodeLoop f r
        | _ => []
      else
        match rest with
        | b1 :: b2 :: b3 :: r =>
            Char.ofNat ((b - 240) * 262144 + (b1 - 128) * 4096 + (b2 - 128) * 64 + (b3 - 128)) ::
              utf8DecodeLoop f r
        | _ => []

/-- UTF-8 decoding of a byte list. -/
def utf8Decode (bs : List Nat) : List Char := utf8DecodeLoop (bs.length + 1) bs

/-- Translation of `base64Encode` of index.js, Node path: `new Buffer(str,
'utf-8').toString('base64')` — UTF-8 encode, then base64. -/
def base64Encode (s : String) : String :=
  ⟨b64EncodeBytes (utf8Bytes s.data)⟩

/-- Translation of `base64Encode` of index.js, browser path: `window.btoa(str)`.
`btoa` throws `InvalidCharacterError` (modelled as `none`) when the
string contains a code unit above `U+00FF`; otherwise it base64
encodes the code units as bytes. -/
def btoa (s : String) : Option String :=
  if s.data.all (fun c => c.toNat < 256) then
    some ⟨b64EncodeBytes (s.data.map Char.toNat)⟩
  else none

/-- Translation of `base64Decode` of index.js, Node path: `new Buffer(str,
'base64').toString()` — lenient base64 decode, then UTF-8 decode. -/
def base64Decode (s : String) : String :=
  ⟨utf8Decode (b64DecodeBytes s.data)⟩

/-- Translation of `base64Decode` of index.js, browser path: `window.atob(str)`,
which can throw (modelled as `none`). -/
def atob (s : String) : Option String :=
  (atobBytes s.data).map (fun bs => ⟨bs.map Char.ofNat⟩)

/-- Split a character list into its lines at `'\n'` (the line
structure used by a JavaScript multiline regex: a string with `k`
newlines has `k + 1` lines, the last one possibly empty). -/
def splitNl : List Char → List (List Char)
  | [] => [[]]
  | c :: rest =>
      if c = '\n' then [] :: splitNl rest
      else
        match splitNl rest with
        | l :: ls => (c :: l) :: ls
        | [] => [[c]]

/-- Rejoin lines with `'\n'`; inverse of `splitNl`. -/
def joinNl : List (List Char) → List Char
  | [] => []
  | [l] => l
  | l :: ls => l ++ '\n' :: joinNl ls

/-- Translation of `lodash.trimEnd`: remove trailing whitespace characters. -/
def trimEnd (s : String) : String :=
  ⟨(s.data.reverse.dropWhile isWS).reverse⟩

/-- Does the character list begin with the four characters `:::\n`
(a closing component-block fence on a line of its own)? -/
def startsClose (cs : List Char) : Bool :=
  decide (cs.take 4 = [':', ':', ':', '\n'])

/-- The non-greedy body search of the pre-pass regex
`^::: ([^\n]+)\n([\s\S]+?\n)?:::\n`: find the shortest nonempty
prefix that ends with `'\n'` and is immediately followed by `:::\n`;
return that prefix (the captured body) and the remainder after the
consumed `:::\n`. -/
def splitBody : List Char → Option (List Char × List Char)
  | [] => none
  | c :: rest =>
      if c = '\n' && startsClose rest then some ([c], rest.drop 4)
      else (splitBody rest).map (fun p => (c :: p.1, p.2))

/-- Match the pre-pass regex `^::: ([^\n]+)\n([\s\S]+?\n)?:::\n` at
the start of the character list (which must be at a line start).
Returns the captured name (`$1`, the rest of the opening line), the
captured body (`$2`, empty when the optional group is absent — the
greedy `?` tries the non-greedy body group first), and the remainder
after the whole match. -/
def matchBlockAt (s : List Char) : Option (List Char × List Char × List Char) :=
  match s with
  | c1 :: c2 :: c3 :: c4 :: rest =>
      if c1 = ':' ∧ c2 = ':' ∧ c3 = ':' ∧ c4 = ' ' then
        let name := rest.takeWhile (fun c => c ≠ '\n')
        if name.isEmpty then none
        else
          match rest.dropWhile (fun c => c ≠ '\n') with
          | '\n' :: rem =>
              match splitBody rem with
              | some (b, r) => some (name, b, r)
              | none => if startsClose rem then some (name, [], rem.drop 4) else none
          | _ => none
      else none
  | _ => none

/-- The global multiline replace of index.js line 71:
`markdown.replace(/^::: ([^\n]+)\n([\s\S]+?\n)?:::\n/mg, ...)`,
with each match rewritten to `::: $1 base64($2 or empty)` — note the
replacement carries no trailing newline.  The scan moves left to
right; `^` anchors at the string start or right after a `'\n'` of
the source (every match ends right after a `'\n'`, so the position
after a match is again a line start; the JavaScript multiline `^`
also anchors after carriage returns and the line/paragraph
separators, which the theorems' hypotheses keep out of the strings
this pass receives).  `encode` is the base64 encoder for the body
characters (Node or browser path). -/
def preEncodeLoop (encode : List Char → List Char) : Nat → Bool → List Char → List Char
  | 0, _, s => s
  | _ + 1, _, [] => []
  | f + 1, ls, c :: rest =>
      match (if ls then matchBlockAt (c :: rest) else none) with
      | some (name, body, r) =>
          ':' :: ':' :: ':' :: ' ' :: name ++ ' ' :: encode body ++
            preEncodeLoop encode f true r
      | none => c :: preEncodeLoop encode f (c = '\n') rest

/-- The component-block pre-pass of `markdownToRemark` (index.js
line 71), Node path: rewrite every multi-line
`::: name / body / :::` block into the single-line encoded form. -/
def preEncode (s : String) : String :=
  ⟨preEncodeLoop (fun body => b64EncodeBytes (utf8Bytes body)) (s.length + 1) true s.data⟩

/-- The bodies captured by the pre-pass matches, in order; used to
express when the browser path's `btoa` calls all succeed. -/
def preMatchedBodies : Nat → Bool → List Char → List (List Char)
  | 0, _, _ => []
  | _ + 1, _, [] => []
  | f + 1, ls, c :: rest =>
      match (if ls then matchBlockAt (c :: rest) else none) with
      | some (_, body, r) => body :: preMatchedBodies f true r
      | none => preMatchedBodies f (c = '\n') rest

/-- The component-block pre-pass, browser path: as `preEncode` but
the base64 encoder is `window.btoa`, which throws (modelled `none`)
on bodies containing a character above `U+00FF`. -/
def preEncodeB (s : String) : Option String :=
  if (preMatchedBodies (s.length + 1) true s.data).all
      (fun body => body.all (fun c => c.toNat < 256)) then
    some ⟨preEncodeLoop (fun body => b64EncodeBytes (body.map Char.toNat)) (s.length + 1) true s.data⟩
  else none

/-- Match of the post-pass regex `^::: (\S+) (\S*)$` against one
line (no `'\n'` inside): after the literal `::: `, a maximal
nonempty run of non-whitespace (`$1`), then a literal space, then
the remainder (`$2`) which must contain no whitespace up to the end
of the line.  Returns the two captures.  The JavaScript multiline
`$` also matches before a carriage return or a line/paragraph
separator; the lines this development feeds to the matcher are kept
free of those characters by the theorems' hypotheses (`goodName`,
`goodBodyLines`), on which this end-of-line model coincides with
the JavaScript one. -/
def parseEncodedLine (l : List Char) : Option (List Char × List Char) :=
  match l with
  | ':' :: ':' :: ':' :: ' ' :: rest =>
      let a := rest.takeWhile (fun c => !(isWS c))
      if a.isEmpty then none
      else
        match rest.dropWhile (fun c => !(isWS c)) with
        | ' ' :: b => if b.all (fun c => !(isWS c)) then some (a, b) else none
        | _ => none
  | _ => none

/-- One line of the post-pass replace of index.js line 159:
`markdown.replace(/^::: (\S+) (\S*)$/mg, ...)`, rewriting an
encoded line back to `::: $1\n` + decoded body + `:::\n`.  `decode`
is the base64 decoder (Node or browser path). -/
def decodeLineWith (decode : List Char → List Char) (l : List Char) : List Char :=
  match parseEncodedLine l with
  | some (a, b) => ':' :: ':' :: ':' :: ' ' :: a ++ '\n' :: (decode b ++ [':', ':', ':', '\n'])
  | none => l

/-- The component-block post-pass of `remarkToMarkdown` (index.js
line 159), Node path: every line matching the encoded pattern is
decoded back to the multi-line block form; replacements are not
rescanned.  The string is split into lines at `'\n'`; the JavaScript
multiline anchors also break lines at carriage returns and the
line/paragraph separators, characters the theorems' hypotheses keep
out of the strings this pass receives. -/
def postDecode (s : String) : String :=
  ⟨joinNl ((splitNl s.data).map (decodeLineWith (fun b => utf8Decode (b64DecodeBytes b))))⟩

/-- The component-block post-pass, browser path: the decoder is
`window.atob`, which throws (modelled `none`) on payloads that are
not valid forgiving-base64. -/
def postDecodeB (s : String) : Option String :=
  if ((splitNl s.data).filterMap parseEncodedLine).all
      (fun p => (atobBytes p.2).isSome) then
    some ⟨joinNl ((splitNl s.data).map
      (decodeLineWith (fun b => ((atobBytes b).getD []).map Char.ofNat)))⟩
  else none

/-- MDAST inline node, restricted to the node kinds the claims
exercise (text, inline code, raw html, the three mark wrappers,
links and images).  Leaf kinds carry a string value, container kinds
carry children, per the data-model invariant of the spec. -/
inductive MdInline where
  | text (v : String)
  | inlineCode (v : String)
  | html (v : String)
  | strong (ch : List MdInline)
  | emphasis (ch : List MdInline)
  | delete (ch : List MdInline)
  | link (url : String) (ch : List MdInline)
  | image (url : String) (alt : String)

/-- MDAST block node: a paragraph of inline children, or a resolved
shortcode component node carrying its tag name and still-encoded
payload. -/
inductive MdBlock where
  | paragraph (ch : List MdInline)
  | component (name : String) (payload : String)

/-- MDAST root. -/
structure Mdast where
  blocks : List MdBlock

/-- Raw inline token: the match of one inline tokenizer, with nested
content still unparsed (it is parsed by the recursive driver). -/
inductive RawTok where
  | rawText (v : List Char)
  | rawCode (v : List Char)
  | rawHtml (v : List Char)
  | rawStrong (content : List Char)
  | rawEm (content : List Char)
  | rawDel (content : List Char)
  | rawLink (url : List Char) (label : List Char)
  | rawImage (url : List Char) (alt : List Char)

/-- The characters at which an inline tokenizer other than the text
tokenizer can start; the text tokenizer consumes up to the next such
character.  `&` is absent: HTML character references are left
un-decoded (the `remarkAllowHtmlEntities` behaviour of spec 4.1),
and the bare-URL tokenizer is removed (index.js line 78), so `:` is
plain text. -/
def isSpecialChar (c : Char) : Bool :=
  c = '*' || c = '_' || c = '~' || c = '`' || c = '[' || c = '!' || c = '<'

/-- Find the first occurrence of character `a`; return the content
before it and the remainder after it. -/
def findSplit1 (a : Char) : List Char → Option (List Char × List Char)
  | [] => none
  | x :: rest =>
      if x = a then some ([], rest)
      else (findSplit1 a rest).map (fun p => (x :: p.1, p.2))

/-- Find the first occurrence of the two-character closer `a b`;
return the content before it and the remainder after it. -/
def findSplit2 (a b : Char) : List Char → Option (List Char × List Char)
  | [] => none
  | [_] => none
  | x :: y :: rest =>
      if x = a && y = b then some ([], rest)
      else (findSplit2 a b (y :: rest)).map (fun p => (x :: p.1, p.2))

/-- Count the leading run of backticks. -/
def countTicks : List Char → Nat × List Char
  | '`' :: rest => let (n, r) := countTicks rest; (n + 1, r)
  | l => (0, l)

/-- Find a closing backtick run of exactly `k` ticks; skip runs of
any other length. -/
def findCodeClose : Nat → Nat → List Char → Option (List Char × List Char)
  | 0, _, _ => none
  | _ + 1, _, [] => none
  | f + 1, k, c :: rest =>
      if c = '`' then
        let (n, r) := countTicks (c :: rest)
        if n = k then some ([], r)
        else (findCodeClose f k r).map (fun p => (List.replicate n '`' ++ p.1, p.2))
      else (findCodeClose f k rest).map (fun p => (c :: p.1, p.2))

/-- Emphasis-style content boundary rule: the content must be
nonempty and start and end with non-whitespace (the `(?=\S)` /
`\S` anchors of the remark inline tokenizers). -/
def okBounds (cs : List Char) : Bool :=
  match cs with
  | [] => false
  | c :: _ =>
      !(isWS c) && (match cs.getLast? with
                    | some d => !(isWS d)
                    | none => false)

/-- Raw HTML inline tokenizer: `<`, an optional `/`, a letter, then
characters other than `<`, `>` and newline, closed by `>`; the whole
matched span is kept verbatim as the node value. -/
def tokHtml : List Char → Option (RawTok × List Char) :=
  fun cs =>
    match cs with
    | c :: rest =>
        if c = '<' then
          let (cl, r1) := match rest with
                          | '/' :: r => (true, r)
                          | _ => (false, rest)
          match r1 with
          | a :: _ =>
              if a.isAlpha then
                match findSplit1 '>' r1 with
                | some (inner, r2) =>
                    if inner.all (fun d => d ≠ '<' && d ≠ '\n') then
                      some (.rawHtml ('<' :: (if cl then ['/'] else []) ++ inner ++ ['>']), r2)
                    else none
                | none => none
              else none
          | [] => none
        else none
    | [] => none

/-- Image tokenizer: `![alt](url)`. -/
def tokImage : List Char → Option (RawTok × List Char)
  | c :: d :: rest =>
      if c = '!' && d = '[' then
        match findSplit1 ']' rest with
        | some (alt, r2) =>
            match r2 with
            | '(' :: r3 =>
                match findSplit1 ')' r3 with
                | some (url, r4) => some (.rawImage url alt, r4)
                | none => none
            | _ => none
        | none => none
      else none
  | _ => none

/-- Link tokenizer: `[label](url)`; the label is parsed further by
the driver. -/
def tokLink : List Char → Option (RawTok × List Char)
  | c :: rest =>
      if c = '[' then
        match findSplit1 ']' rest with
        | some (label, r2) =>
            match r2 with
            | '(' :: r3 =>
                match findSplit1 ')' r3 with
                | some (url, r4) => some (.rawLink url label, r4)
                | none => none
            | _ => none
        | none => none
      else none
  | [] => none

/-- Strong tokenizer: `**content**` or `__content__`, non-greedy
closer, content bounded by non-whitespace. -/
def tokStrong : List Char → Option (RawTok × List Char)
  | c :: d :: rest =>
      if (c = '*' && d = '*') || (c = '_' && d = '_') then
        match findSplit2 c d rest with
        | some (content, r) =>
            if okBounds content then some (.rawStrong content, r) else none
        | none => none
      else none
  | _ => none

/-- Emphasis tokenizer: `*content*` or `_content_`, non-greedy
closer, content bounded by non-whitespace. -/
def tokEmph : List Char → Option (RawTok × List Char)
  | c :: rest =>
      if c = '*' || c = '_' then
        if rest.head? = some c then none
        else
          match findSplit1 c rest with
          | some (content, r) =>
              if okBounds content then some (.rawEm content, r) else none
          | none => none
      else none
  | [] => none

/-- Strikethrough tokenizer: `~~content~~`, non-greedy closer,
content bounded by non-whitespace. -/
def tokDelete : List Char → Option (RawTok × List Char)
  | c :: d :: rest =>
      if c = '~' && d = '~' then
        match findSplit2 '~' '~' rest with
        | some (content, r) =>
            if okBounds content then some (.rawDel content, r) else none
        | none => none
      else none
  | _ => none

/-- Inline-code tokenizer: a backtick run of length `k` closed by
the next run of exactly `k` backticks; the value is kept verbatim
(entities in it are not decoded). -/
def tokCode : List Char → Option (RawTok × List Char)
  | c :: rest =>
      if c = '`' then
        let (k, r) := countTicks (c :: rest)
        (findCodeClose r.length k r).map (fun p => (.rawCode p.1, p.2))
      else none
  | [] => none

/-- Try the inline tokenizers in order (html, image, link, strong,
emphasis, strikethrough, code), mirroring the remark inline
tokenizer chain with the url tokenizer removed and entity decoding
disabled. -/
def rawTok (cs : List Char) : Option (RawTok × List Char) :=
  (tokHtml cs).orElse fun _ =>
  (tokImage cs).orElse fun _ =>
  (tokLink cs).orElse fun _ =>
  (tokStrong cs).orElse fun _ =>
  (tokEmph cs).orElse fun _ =>
  (tokDelete cs).orElse fun _ =>
  tokCode cs

/-- Modelled from the spec: the inline grammar of the Markup Parser
(spec 4.1) — the `remark-parse` tokenizer chain configured by
`markdownToRemark`, which is not part of the source snapshot.  A
fuel-driven scan: at each position the tokenizers are tried in
order; on failure a text run is consumed up to the next potential
token start (one character when the position itself is a failed
token start).  Nested content (strong/emphasis/strikethrough
bodies, link labels) is parsed recursively. -/
def parseInline : Nat → List Char → List MdInline
  | 0, cs => if cs.isEmpty then [] else [.text ⟨cs⟩]
  | _ + 1, [] => []
  | f + 1, c :: rest =>
      match rawTok (c :: rest) with
      | some (t, r) =>
          (match t with
           | .rawText v => .text ⟨v⟩
           | .rawCode v => .inlineCode ⟨v⟩
           | .rawHtml v => .html ⟨v⟩
           | .rawStrong content => .strong (parseInline f content)
           | .rawEm content => .emphasis (parseInline f content)
           | .rawDel content => .delete (parseInline f content)
           | .rawLink url label => .link ⟨url⟩ (parseInline f label)
           | .rawImage url alt => .image ⟨url⟩ ⟨alt⟩) :: parseInline f r
      | none =>
          if isSpecialChar c then .text ⟨[c]⟩ :: parseInline f rest
          else
            .text ⟨(c :: rest).takeWhile (fun d => !(isSpecialChar d))⟩ ::
              parseInline f ((c :: rest).dropWhile (fun d => !(isSpecialChar d)))

/-- Merge adjacent text nodes (remark presents a paragraph's
consecutive literal characters as a single text node). -/
def mergeTexts : List MdInline → List MdInline
  | [] => []
  | x :: rest =>
      match x, mergeTexts rest with
      | .text a, .text b :: r => .text (a ++ b) :: r
      | x', r => x' :: r

/-- Group the lines of a document into paragraph chunks: maximal
runs of nonempty lines, rejoined with `'\n'`; blank lines separate
paragraphs. -/
def groupParas : Nat → List (List Char) → List (List Char)
  | 0, _ => []
  | _ + 1, [] => []
  | f + 1, l :: rest =>
      if l.isEmpty then groupParas f rest
      else
        joinNl ((l :: rest).takeWhile (fun x => !x.isEmpty)) ::
          groupParas f ((l :: rest).dropWhile (fun x => !x.isEmpty))

/-- Modelled from the spec: the block grammar of the Markup Parser
(spec 4.1) restricted to the constructs the claims exercise —
paragraphs separated by blank lines, whose contents are parsed by
the inline grammar.  Headings, lists, block quotes, thematic breaks,
setext underlines and fenced/indented code are omitted; every input
on whose exact parse a theorem depends — the corpus strings and the
component-block forms built from alphanumeric body lines,
`::: `-prefixed header lines and the bare closing fence — consists
of lines that start or interrupt none of those constructs under the
commonmark grammar, so on those inputs this fragment agrees with the
full one (the canonicality invariant quantifies over all inputs but
is a property of the tree-to-richdoc conversion, independent of
which tree the parse returns). -/
def parseMd (s : String) : Mdast :=
  ⟨(groupParas (s.data.length + 1) (splitNl s.data)).map
    (fun para => .paragraph (mergeTexts (parseInline (para.length + 1) para)))⟩

/-- Modelled from the spec: the shortcode-resolution pass
(`remarkShortcodes`, spec 4.2.3), which is not part of the source
snapshot.  A paragraph consisting of one text node in the encoded
single-line component form is replaced by a typed component node
when the Shortcode Plugin Interface recognises the tag name
(exact, case-sensitive match); an unrecognised tag is left as
literal text.  The plugin interface is the injected capability of
spec 4.7; only the presence of a definition is relevant to this
pass, so a definition is modelled as `Unit`. -/
def shortcodeBlock (plugins : String → Option Unit) (b : MdBlock) : MdBlock :=
  match b with
  | .paragraph [.text v] =>
      (match parseEncodedLine v.data with
       | some (a, pl) =>
           (match plugins ⟨a⟩ with
            | some _ => .component ⟨a⟩ ⟨pl⟩
            | none => b)
       | none => b)
  | _ => b

/-- The shortcode pass over a whole tree. -/
def shortcodePass (plugins : String → Option Unit) (t : Mdast) : Mdast :=
  ⟨t.blocks.map (shortcodeBlock plugins)⟩

/-- Translation of `markdownToRemark` of index.js (lines 69–92), Node path: the
component-block pre-pass, then the markup parse, then the tree
passes.  (Of the tree passes, reference squashing and orphan-image
demotion are identities on the tree fragments this model produces —
reference-style links and definitions are outside the modelled
grammar — leaving the shortcode pass.) -/
def markdownToRemark (plugins : String → Option Unit) (md : String) : Mdast :=
  shortcodePass plugins (parseMd (preEncode md))

/-- Translation of `markdownToRemark`, browser path: the pre-pass uses
`window.btoa` and can throw (modelled `none`). -/
def markdownToRemarkB (plugins : String → Option Unit) (md : String) : Option Mdast :=
  (preEncodeB md).map (fun s => shortcodePass plugins (parseMd s))

/-- A set of style marks on a text leaf (spec 3: bold, italic,
strikethrough, code). -/
structure MarkSet where
  bold : Bool
  italic : Bool
  strike : Bool
  code : Bool
  deriving DecidableEq, Repr

/-- The empty mark set. -/
def MarkSet.none : MarkSet := ⟨false, false, false, false⟩

/-- A text leaf of the rich-document model: a text run with one
exact mark set. -/
structure Leaf where
  text : String
  marks : MarkSet
  deriving DecidableEq, Repr

/-- Inline-level node of the rich-document model: a text node
holding leaves, or an inline link / image node.  Non-text inline
nodes are wrapped to also carry the enclosing marks (spec 4.4); a
link's label is a sequence of leaves. -/
inductive SlateInline where
  | textNode (leaves : List Leaf)
  | link (url : String) (marks : MarkSet) (children : List Leaf)
  | image (url : String) (alt : String) (marks : MarkSet)
  deriving DecidableEq, Repr

/-- Block-level node of the rich-document model. -/
inductive SlateBlock where
  | para (ch : List SlateInline)
  | component (name : String) (payload : String)
  deriving DecidableEq, Repr

/-- Root of the rich-document model. -/
structure SlateDoc where
  blocks : List SlateBlock
  deriving DecidableEq, Repr

/-- Intermediate flat item during conversion: a leaf or an inline
node, each carrying its mark set. -/
inductive Item where
  | leaf (l : Leaf)
  | ilink (url : String) (marks : MarkSet) (children : List Leaf)
  | iimage (url : String) (alt : String) (marks : MarkSet)
  deriving DecidableEq, Repr

/-- Merge adjacent leaves with identical mark sets, concatenating
their text (the flattening/merging pass of spec 4.4). -/
def mergeLeaves : List Leaf → List Leaf
  | [] => []
  | a :: rest =>
      match mergeLeaves rest with
      | [] => [a]
      | b :: r' =>
          if a.marks = b.marks then ⟨a.text ++ b.text, a.marks⟩ :: r'
          else a :: b :: r'

/-- Keep only the leaf items (used to flatten a link label's
content to leaves). -/
def leavesOf (items : List Item) : List Leaf :=
  items.filterMap (fun it => match it with
    | .leaf l => some l
    | _ => Option.none)

mutual

/-- Modelled from the spec: the tree-to-rich-document conversion of
one inline node (`remarkSlate`, spec 4.4), which is not part of the
source snapshot.  The depth-first visit carries the set of enclosing
marks; entering strong/emphasis/delete adds the mark and recurses
into all children (text and non-text alike); inline code becomes a
leaf with the `code` mark; text and raw html become leaves; link and
image become inline items that also carry the enclosing marks. -/
def inlineToItems (m : MarkSet) : MdInline → List Item
  | .text v => [.leaf ⟨v, m⟩]
  | .html v => [.leaf ⟨v, m⟩]
  | .inlineCode v => [.leaf ⟨v, { m with code := true }⟩]
  | .strong ch => inlinesToItems { m with bold := true } ch
  | .emphasis ch => inlinesToItems { m with italic := true } ch
  | .delete ch => inlinesToItems { m with strike := true } ch
  | .link url ch => [.ilink url m (leavesOf (inlinesToItems m ch))]
  | .image url alt => [.iimage url alt m]

/-- The visit of `inlineToItems` over a child list. -/
def inlinesToItems (m : MarkSet) : List MdInline → List Item
  | [] => []
  | x :: xs => inlineToItems m x ++ inlinesToItems m xs

end

/-- Split off the maximal leading run of leaf items. -/
def splitLeaves : List Item → List Leaf × List Item
  | .leaf l :: rest => let (ls, r) := splitLeaves rest; (l :: ls, r)
  | items => ([], items)

/-- Group a flat item sequence into rich-document inline nodes:
maximal runs of leaves become one text node with adjacent
identically-styled leaves merged; link labels are likewise merged.
Fuel-driven (each step consumes at least one item). -/
def itemsToInlines : Nat → List Item → List SlateInline
  | 0, _ => []
  | _ + 1, [] => []
  | f + 1, .leaf l :: rest =>
      let (ls, r) := splitLeaves rest
      .textNode (mergeLeaves (l :: ls)) :: itemsToInlines f r
  | f + 1, .ilink url m ch :: rest =>
      .link url m (mergeLeaves ch) :: itemsToInlines f rest
  | f + 1, .iimage url alt m :: rest =>
      .image url alt m :: itemsToInlines f rest

/-- Modelled from the spec: the tree-to-rich-document conversion
(spec 4.4) of one block. -/
def blockToSlate : MdBlock → SlateBlock
  | .paragraph ch =>
      let items := inlinesToItems MarkSet.none ch
      .para (itemsToInlines (items.length + 1) items)
  | .component name payload => .component name payload

/-- Modelled from the spec: the tree-to-rich-document conversion
(`remarkSlate` with `remarkWrapHtml`, spec 4.4) over a whole tree. -/
def slateFromMdast (t : Mdast) : SlateDoc :=
  ⟨t.blocks.map blockToSlate⟩

/-- Translation of `markdownToSlate` of index.js (lines 217–226): markup to MDAST,
then MDAST to the rich-document model. -/
def markdownToSlate (plugins : String → Option Unit) (md : String) : SlateDoc :=
  slateFromMdast (markdownToRemark plugins md)

/-- A single style mark (the wrapper kinds re-derived on
serialization). -/
inductive Mark where
  | bold
  | italic
  | strike
  deriving DecidableEq, Repr

/-- Does the mark set contain the mark? -/
def MarkSet.hasMark (m : MarkSet) : Mark → Bool
  | .bold => m.bold
  | .italic => m.italic
  | .strike => m.strike

/-- Remove the mark from the mark set. -/
def MarkSet.clearMark (m : MarkSet) : Mark → MarkSet
  | .bold => { m with bold := false }
  | .italic => { m with italic := false }
  | .strike => { m with strike := false }

/-- The mark set carried by an item. -/
def Item.marksOf : Item → MarkSet
  | .leaf l => l.marks
  | .ilink _ m _ => m
  | .iimage _ _ m => m

/-- Does the item carry the mark? -/
def itemHasMark (mk : Mark) (it : Item) : Bool :=
  it.marksOf.hasMark mk

/-- Remove the mark from an item; for a link also from its label
leaves (the mark is about to be represented by a wrapper node
enclosing the whole run). -/
def itemClearMark (mk : Mark) : Item → Item
  | .leaf l => .leaf ⟨l.text, l.marks.clearMark mk⟩
  | .ilink url m ch => .ilink url (m.clearMark mk) (ch.map (fun l => ⟨l.text, l.marks.clearMark mk⟩))
  | .iimage url alt m => .iimage url alt (m.clearMark mk)

/-- The wrapper node for a mark. -/
def wrapNode : Mark → List MdInline → MdInline
  | .bold => .strong
  | .italic => .emphasis
  | .strike => .delete

/-- The fixed canonical nesting order for mark wrappers, outermost
first: strikethrough, then italic, then bold; the `code` mark is
innermost, becoming the inline-code leaf itself (spec 9's fixed
canonical order, fixed here as verified against the round-trip
corpus). -/
def wrapOrder : List Mark := [.strike, .italic, .bold]

/-- Modelled from the spec: re-derivation of wrapper nesting from
flat mark sets for a leaf-only sequence (a link label), spec 4.5:
maximal runs of adjacent leaves sharing the current mark are wrapped
in one wrapper node; leaves with the residual `code` mark become
inline-code nodes, others text nodes.  Fuel-driven. -/
def condenseLeaves : Nat → List Mark → List Leaf → List MdInline
  | 0, _, _ => []
  | _ + 1, [], ls =>
      ls.map (fun l => if l.marks.code then .inlineCode l.text else .text l.text)
  | _ + 1, _ :: _, [] => []
  | f + 1, mk :: rest, l :: ls =>
      if l.marks.hasMark mk then
        wrapNode mk (condenseLeaves f rest
            (((l :: ls).takeWhile (fun x => x.marks.hasMark mk)).map
              (fun x => ⟨x.text, x.marks.clearMark mk⟩))) ::
          condenseLeaves f (mk :: rest) ((l :: ls).dropWhile (fun x => x.marks.hasMark mk))
      else
        condenseLeaves f rest ((l :: ls).takeWhile (fun x => !(x.marks.hasMark mk))) ++
          condenseLeaves f (mk :: rest) ((l :: ls).dropWhile (fun x => !(x.marks.hasMark mk)))

/-- An item at the innermost level (all wrapper marks already
represented): a leaf becomes a text or inline-code node; a link
becomes a link node whose label is condensed recursively; an image
becomes an image node. -/
def itemAtom (f : Nat) : Item → MdInline
  | .leaf l => if l.marks.code then .inlineCode l.text else .text l.text
  | .ilink url _ ch => .link url (condenseLeaves f wrapOrder ch)
  | .iimage url alt _ => .image url alt

/-- Modelled from the spec: re-derivation of wrapper nesting from
flat mark sets (spec 4.5), over a flat item sequence.  For each mark
in the canonical order, maximal runs of adjacent items all carrying
that mark are wrapped in one wrapper node (with the mark removed
inside, so a text leaf and a link sharing a mark are condensed under
one wrapper); runs without it are processed at the next level.
Fuel-driven. -/
def condense : Nat → List Mark → List Item → List MdInline
  | 0, _, _ => []
  | f + 1, [], items => items.map (itemAtom f)
  | _ + 1, _ :: _, [] => []
  | f + 1, mk :: rest, it :: items =>
      if itemHasMark mk it then
        wrapNode mk (condense f rest
            (((it :: items).takeWhile (itemHasMark mk)).map (itemClearMark mk))) ::
          condense f (mk :: rest) ((it :: items).dropWhile (itemHasMark mk))
      else
        condense f rest ((it :: items).takeWhile (fun x => !(itemHasMark mk x))) ++
          condense f (mk :: rest) ((it :: items).dropWhile (fun x => !(itemHasMark mk x)))

/-- Fuel bound for `condense`: enough steps for the item list, the
mark levels and every link label. -/
def itemWeight : Item → Nat
  | .leaf _ => 1
  | .ilink _ _ ch => ch.length + 8
  | .iimage _ _ _ => 1

/-- Total fuel for condensing an item list. -/
def itemsFuel (items : List Item) : Nat :=
  items.foldr (fun it a => itemWeight it + a) 8

/-- Split a styled leaf's leading and trailing whitespace into
unstyled leaves of their own, so the serializer places the mark
delimiters immediately around the non-space portion (spec 4.4's
whitespace-boundary policy, the fix for the trailing-whitespace
tests).  An unstyled leaf is kept whole; a styled all-whitespace
leaf degrades to an unstyled one. -/
def splitWsLeaf (l : Leaf) : List Item :=
  if l.marks = MarkSet.none then [.leaf l]
  else
    let pre := l.text.data.takeWhile isWS
    let rest := l.text.data.dropWhile isWS
    let core := (rest.reverse.dropWhile isWS).reverse
    let post := rest.reverse.takeWhile isWS
    if core.isEmpty then [.leaf ⟨l.text, MarkSet.none⟩]
    else
      (if pre.isEmpty then [] else [Item.leaf ⟨⟨pre⟩, MarkSet.none⟩]) ++
      [Item.leaf ⟨⟨core⟩, l.marks⟩] ++
      (if post.isEmpty then [] else [Item.leaf ⟨⟨post.reverse⟩, MarkSet.none⟩])

/-- Flatten rich-document inline nodes back to a flat item
sequence, applying the whitespace split to styled leaves. -/
def inlineToItemsBack : SlateInline → List Item
  | .textNode ls => ls.foldr (fun l acc => splitWsLeaf l ++ acc) []
  | .link url m ch => [.ilink url m ch]
  | .image url alt m => [.iimage url alt m]

/-- Flatten a paragraph's inline children back to items. -/
def inlinesToItemsBack (ch : List SlateInline) : List Item :=
  ch.foldr (fun i acc => inlineToItemsBack i ++ acc) []

/-- Modelled from the spec: the rich-document-to-tree conversion
(`slateRemark`, spec 4.5), which is not part of the source snapshot;
driven by explicit per-node-type dispatch.  The `plugins` argument
mirrors the `shortcodePlugins` option of the source call; component
payloads are carried through still encoded, so only the node shape
depends on it and it is unused here. -/
def slateToRemark (_plugins : String → Option Unit) (d : SlateDoc) : Mdast :=
  ⟨d.blocks.map (fun b =>
    match b with
    | .para ch =>
        let items := inlinesToItemsBack ch
        .paragraph (condense (itemsFuel items) wrapOrder items)
    | .component name payload => .component name payload)⟩

mutual

/-- Modelled from the spec: stringification of one inline node
(spec 4.3) with the fixed style configuration of index.js lines
131–143 (`strong: '*'`, default emphasis marker `_`) and the
overridden text visitor of `remarkAllowAllText` (index.js lines
120–124), which emits text values verbatim with no escaping. -/
def stringifyInline : MdInline → String
  | .text v => v
  | .inlineCode v => "`" ++ v ++ "`"
  | .html v => v
  | .strong ch => "**" ++ stringifyInlines ch ++ "**"
  | .emphasis ch => "_" ++ stringifyInlines ch ++ "_"
  | .delete ch => "~~" ++ stringifyInlines ch ++ "~~"
  | .link url ch => "[" ++ stringifyInlines ch ++ "](" ++ url ++ ")"
  | .image url alt => "![" ++ alt ++ "](" ++ url ++ ")"

/-- Stringification of an inline child list. -/
def stringifyInlines : List MdInline → String
  | [] => ""
  | x :: xs => stringifyInline x ++ stringifyInlines xs

end

/-- Join chunks with blank lines (`"\n\n"`). -/
def joinNl2 : List (List Char) → List Char
  | [] => []
  | [l] => l
  | l :: ls => l ++ '\n' :: '\n' :: joinNl2 ls

/-- Stringification of one block; a component node renders as its
encoded single line (decoded back by the post-pass). -/
def stringifyBlock : MdBlock → String
  | .paragraph ch => stringifyInlines ch
  | .component name payload => "::: " ++ name ++ " " ++ payload

/-- Modelled from the spec: stringification of a tree (spec 4.3),
blocks separated by blank lines.  The escape-markdown-entities pass
is the controlled escaping of spec 4.3; on the grammar fragment
modelled here it escapes nothing (the test corpus pins this down:
raw html text such as a lone `*` must not be escaped), and the
trailing-break stripping pass is an identity because the modelled
grammar has no break nodes, so neither appears as a separate
stage. -/
def stringifyMdast (t : Mdast) : String :=
  ⟨joinNl2 (t.blocks.map (fun b => (stringifyBlock b).data))⟩

/-- The empty tree substituted by `remarkToMarkdown` when no value
is provided (index.js line 129): a root holding one paragraph
holding one empty text node. -/
def emptyMdast : Mdast := ⟨[.paragraph [.text ""]]⟩

/-- Translation of `remarkToMarkdown` of index.js (lines 114–165), Node path:
substitute the empty tree when no input is given, stringify,
decode the single-line component forms back to multi-line blocks,
and strip trailing whitespace. -/
def remarkToMarkdown (obj : Option Mdast) : String :=
  trimEnd (postDecode (stringifyMdast (obj.getD emptyMdast)))

/-- Translation of `remarkToMarkdown`, browser path: the post-pass decodes with
`window.atob`, which can throw (modelled `none`). -/
def remarkToMarkdownB (obj : Option Mdast) : Option String :=
  (postDecodeB (stringifyMdast (obj.getD emptyMdast))).map trimEnd

/-- Translation of `slateToMarkdown` of index.js (lines 238–242): rich-document
model to MDAST, then MDAST to markdown. -/
def slateToMarkdown (plugins : String → Option Unit) (raw : SlateDoc) : String :=
  remarkToMarkdown (some (slateToRemark plugins raw))

/-- The empty plugin registry: no shortcode tag is recognised. -/
def noPlugins : String → Option Unit := fun _ => Option.none

/-- The markup-to-richdoc-to-markup cycle
`slateToMarkdown ∘ markdownToSlate`. -/
def mdRoundTrip (plugins : String → Option Unit) (m : String) : String :=
  slateToMarkdown plugins (markdownToSlate plugins m)

/-- Canonicality of a leaf sequence: no two adjacent leaves have
identical mark sets. -/
def leavesCanonical : List Leaf → Bool
  | [] => true
  | [_] => true
  | a :: b :: rest => decide (a.marks ≠ b.marks) && leavesCanonical (b :: rest)

/-- Canonicality of one rich-document inline node. -/
def inlineCanonical : SlateInline → Bool
  | .textNode ls => leavesCanonical ls
  | .link _ _ ch => leavesCanonical ch
  | .image _ _ _ => true

/-- Canonicality of one rich-document block. -/
def blockCanonical : SlateBlock → Bool
  | .para ch => ch.all inlineCanonical
  | .component _ _ => true

/-- Canonicality of a rich-document model: every text node's (and
link label's) leaf sequence is canonical. -/
def docCanonical (d : SlateDoc) : Bool :=
  d.blocks.all blockCanonical

/-- A string has no trailing whitespace. -/
def noTrailingWS (s : String) : Prop :=
  ∀ c, s.data.getLast? = some c → isWS c = false

/-- The character sequence of a component-block body given as a list
of lines: each line followed by a newline (so the body is empty or
newline-terminated, as the block syntax requires). -/
def bodyOf (bls : List (List Char)) : List Char :=
  bls.foldr (fun l acc => l ++ '\n' :: acc) []

/-- The full multi-line component-block string
`::: name\n` + body + `:::\n` over a name and body lines. -/
def blockStr (name : String) (bls : List String) : String :=
  ⟨':' :: ':' :: ':' :: ' ' :: name.data ++
    '\n' :: (bodyOf (bls.map String.data) ++ [':', ':', ':', '\n'])⟩

/-- Adjacent-pair scan: no `:` immediately followed by a newline
anywhere in the character list.  A string with this property cannot
contain the closing fence `:::` at the end of a line, so the
component-block pre-pass can never fire on it. -/
def pairsOk : List Char → Bool
  | a :: b :: rest => !(a = ':' && b = '\n') && pairsOk (b :: rest)
  | _ => true

/-- Well-formedness of a component-block name for the round-trip
statements: nonempty and free of whitespace (the serialize-side
pattern requires a `\S+` name). -/
abbrev goodName (name : String) : Prop :=
  name.data ≠ [] ∧ ∀ c ∈ name.data, isWS c = false

/-- Well-formedness of the body lines for the round-trip
statements: no embedded newline and no carriage return (a JavaScript
multiline `^`/`$` also anchors at a carriage return, so a line kept
free of `\r` has the same line structure under the real regexes and
under the `\n`-based splitting modelled here), ASCII text, and no
line equal to the closing fence `:::` (which would end the block
early). -/
abbrev goodBodyLines (bls : List String) : Prop :=
  ∀ l ∈ bls, (∀ c ∈ l.data, c ≠ '\n' ∧ c ≠ '\r' ∧ c.toNat < 128) ∧ l.data ≠ [':', ':', ':']

/-!
Theorems.  Helper lemmas first, then one theorem per claim (with
witnesses and counterexamples where applicable).
-/

theorem takeWhile_all_append (p : Char → Bool) (xs : List Char) (y : Char) (ys : List Char)
    (hxs : ∀ c ∈ xs, p c = true) (hy : p y = false) :
    (xs ++ y :: ys).takeWhile p = xs := by
  induction xs with
  | nil => simp [List.takeWhile, hy]
  | cons a as ih =>
      have ha : p a = true := hxs a (by simp)
      simp only [List.cons_append, List.takeWhile_cons, ha, if_true]
      rw [ih (fun c hc => hxs c (by simp [hc]))]

theorem dropWhile_all_append (p : Char → Bool) (xs : List Char) (y : Char) (ys : List Char)
    (hxs : ∀ c ∈ xs, p c = true) (hy : p y = false) :
    (xs ++ y :: ys).dropWhile p = y :: ys := by
  induction xs with
  | nil => simp [List.dropWhile, hy]
  | cons a as ih =>
      have ha : p a = true := hxs a (by simp)
      simp only [List.cons_append, List.dropWhile_cons, ha, if_true]
      exact ih (fun c hc => hxs c (by simp [hc]))

theorem splitNl_no_nl (l : List Char) (h : ∀ c ∈ l, c ≠ '\n') : splitNl l = [l] := by
  induction l with
  | nil => rfl
  | cons c rest ih =>
      have hc : c ≠ '\n' := h c (by simp)
      rw [splitNl, if_neg hc, ih (fun d hd => h d (by simp [hd]))]

theorem splitNl_append_cons (l : List Char) (rest : List Char) (h : ∀ c ∈ l, c ≠ '\n') :
    splitNl (l ++ '\n' :: rest) = l :: splitNl rest := by
  induction l with
  | nil => simp [splitNl]
  | cons c cs ih =>
      have hc : c ≠ '\n' := h c (by simp)
      rw [List.cons_append, splitNl, if_neg hc, ih (fun d hd => h d (by simp [hd]))]

theorem mergeLeaves_canonical (ls : List Leaf) : leavesCanonical (mergeLeaves ls) = true := by
  induction ls with
  | nil => rfl
  | cons a rest ih =>
      rw [mergeLeaves]
      rcases hm : mergeLeaves rest with _ | ⟨b, r'⟩
      · rfl
      · rw [hm] at ih
        show leavesCanonical
          (if a.marks = b.marks then (⟨a.text ++ b.text, a.marks⟩ : Leaf) :: r'
           else a :: b :: r') = true
        by_cases hab : a.marks = b.marks
        · rw [if_pos hab]
          rcases r' with _ | ⟨d, r''⟩
          · rfl
          · simp only [leavesCanonical, Bool.and_eq_true, decide_eq_true_eq] at ih ⊢
            exact ⟨by show a.marks ≠ d.marks; rw [hab]; exact ih.1, ih.2⟩
        · rw [if_neg hab]
          simp only [leavesCanonical, Bool.and_eq_true, decide_eq_true_eq]
          exact ⟨hab, ih⟩

theorem itemsToInlines_canonical (f : Nat) :
    ∀ items, ∀ sl ∈ itemsToInlines f items, inlineCanonical sl = true := by
  induction f with
  | zero => intro items sl hsl; simp [itemsToInlines] at hsl
  | succ f ih =>
      intro items sl hsl
      match items with
      | [] => simp [itemsToInlines] at hsl
      | .leaf l :: rest =>
          rw [itemsToInlines] at hsl
          rcases List.mem_cons.1 hsl with h | h
          · rw [h, inlineCanonical]; exact mergeLeaves_canonical _
          · exact ih _ sl h
      | .ilink url m ch :: rest =>
          rw [itemsToInlines] at hsl
          rcases List.mem_cons.1 hsl with h | h
          · rw [h, inlineCanonical]; exact mergeLeaves_canonical _
          · exact ih _ sl h
      | .iimage url alt m :: rest =>
          rw [itemsToInlines] at hsl
          rcases List.mem_cons.1 hsl with h | h
          · rw [h]; rfl
          · exact ih _ sl h

theorem blockToSlate_canonical (b : MdBlock) : blockCanonical (blockToSlate b) = true := by
  match b with
  | .paragraph ch =>
      rw [blockToSlate, blockCanonical]
      exact List.all_eq_true.2 (fun sl hsl => itemsToInlines_canonical _ _ sl hsl)
  | .component name payload => rfl

theorem slateFromMdast_canonical (t : Mdast) : docCanonical (slateFromMdast t) = true := by
  rw [slateFromMdast, docCanonical]
  exact List.all_eq_true.2 (fun b hb => by
    rcases List.mem_map.1 hb with ⟨b0, _, rfl⟩
    exact blockToSlate_canonical b0)

theorem b64Val_b64Char : ∀ n < 64, b64Val (b64Char n) = some n := by decide

theorem b64Val_eq : b64Val '=' = Option.none := by decide

theorem b64_unsextet_encode :
    ∀ (n : Nat) (bs : List Nat), bs.length ≤ n → (∀ b ∈ bs, b < 256) →
      b64Unsextet ((b64EncodeBytes bs).filterMap b64Val) = bs := by
  intro n
  induction n with
  | zero =>
      intro bs hlen _
      rw [List.length_eq_zero.1 (Nat.le_zero.1 hlen)]
      rfl
  | succ n ih =>
      intro bs hlen hb
      match bs with
      | [] => rfl
      | [b0] =>
          have h0 : b0 < 256 := hb b0 (by simp)
          rw [b64EncodeBytes]
          simp only [List.filterMap_cons, List.filterMap_nil,
            b64Val_b64Char (b0 / 4) (by omega), b64Val_b64Char (b0 % 4 * 16) (by omega), b64Val_eq]
          rw [b64Unsextet]
          congr 1
          omega
      | [b0, b1] =>
          have h0 : b0 < 256 := hb b0 (by simp)
          have h1 : b1 < 256 := hb b1 (by simp)
          rw [b64EncodeBytes]
          simp only [List.filterMap_cons, List.filterMap_nil,
            b64Val_b64Char (b0 / 4) (by omega),
            b64Val_b64Char (b0 % 4 * 16 + b1 / 16) (by omega),
            b64Val_b64Char (b1 % 16 * 4) (by omega), b64Val_eq]
          rw [b64Unsextet]
          congr 1
          · omega
          · congr 1
            omega
      | b0 :: b1 :: b2 :: rest =>
          have h0 : b0 < 256 := hb b0 (by simp)
          have h1 : b1 < 256 := hb b1 (by simp)
          have h2 : b2 < 256 := hb b2 (by simp)
          rw [b64EncodeBytes]
          simp only [List.filterMap_cons,
            b64Val_b64Char (b0 / 4) (by omega),
            b64Val_b64Char (b0 % 4 * 16 + b1 / 16) (by omega),
            b64Val_b64Char (b1 % 16 * 4 + b2 / 64) (by omega),
            b64Val_b64Char (b2 % 64) (by omega)]
          rw [b64Unsextet]
          have hrest : b64Unsextet ((b64EncodeBytes rest).filterMap b64Val) = rest :=
            ih rest (by simp at hlen; omega) (fun b hbm => hb b (by simp [hbm]))
          rw [hrest]
          congr 1
          · omega
          · congr 1
            · omega
            · congr 1
              omega

theorem utf8Char_ascii (c : Char) (h : c.toNat < 128) : utf8Char c = [c.toNat] := by
  rw [utf8Char]
  simp only [if_pos h]

theorem utf8Bytes_ascii (cs : List Char) (h : ∀ c ∈ cs, c.toNat < 128) :
    utf8Bytes cs = cs.map Char.toNat := by
  induction cs with
  | nil => rfl
  | cons c rest ih =>
      rw [utf8Bytes, List.foldr_cons, utf8Char_ascii c (h c (by simp)),
        show List.foldr (fun c acc => utf8Char c ++ acc) [] rest = utf8Bytes rest from rfl,
        ih (fun d hd => h d (by simp [hd]))]
      rfl

theorem utf8DecodeLoop_ascii :
    ∀ (f : Nat) (bs : List Nat), bs.length ≤ f → (∀ b ∈ bs, b < 128) →
      utf8DecodeLoop f bs = bs.map Char.ofNat := by
  intro f
  induction f with
  | zero =>
      intro bs hlen _
      rw [List.length_eq_zero.1 (Nat.le_zero.1 hlen)]
      rfl
  | succ f ih =>
      intro bs hlen hb
      match bs with
      | [] => rfl
      | b :: rest =>
          rw [utf8DecodeLoop.eq_def]
          dsimp only
          rw [if_pos (hb b (by simp)),
            ih rest (by simp at hlen; omega) (fun d hd => hb d (by simp [hd]))]
          rfl

theorem utf8_roundtrip_ascii (cs : List Char) (h : ∀ c ∈ cs, c.toNat < 128) :
    utf8Decode (utf8Bytes cs) = cs := by
  rw [utf8Bytes_ascii cs h, utf8Decode,
    utf8DecodeLoop_ascii _ _ (by simp) (by
      intro b hbm
      rcases List.mem_map.1 hbm with ⟨c, hc, rfl⟩
      exact h c hc),
    List.map_map]
  have : ∀ c ∈ cs, (Char.ofNat ∘ Char.toNat) c = c := fun c _ => Char.ofNat_toNat c
  rw [List.map_congr_left this]
  simp

theorem b64_string_roundtrip_ascii (cs : List Char) (h : ∀ c ∈ cs, c.toNat < 128) :
    utf8Decode (b64DecodeBytes (b64EncodeBytes (utf8Bytes cs))) = cs := by
  rw [utf8Bytes_ascii cs h, b64DecodeBytes,
    b64_unsextet_encode (cs.map Char.toNat).length _ le_rfl (by
      intro b hbm
      rcases List.mem_map.1 hbm with ⟨c, hc, rfl⟩
      exact Nat.lt_of_lt_of_le (h c hc) (by omega)),
    ← utf8Bytes_ascii cs h]
  exact utf8_roundtrip_ascii cs h

theorem b64EncodeBytes_plain :
    ∀ bs : List Nat, (∀ b ∈ bs, b < 256) →
      ∀ c ∈ b64EncodeBytes bs, isWS c = false ∧ isSpecialChar c = false := by
  have htab : ∀ n < 64, isWS (b64Char n) = false ∧ isSpecialChar (b64Char n) = false := by decide
  have heq : isWS '=' = false ∧ isSpecialChar '=' = false := by decide
  intro bs
  induction bs using b64EncodeBytes.induct with
  | case1 =>
      intro _ c hc
      simp [b64EncodeBytes] at hc
  | case2 b0 =>
      intro hb c hc
      have h0 : b0 < 256 := hb b0 (by simp)
      rw [b64EncodeBytes] at hc
      simp only [List.mem_cons, List.not_mem_nil, or_false] at hc
      rcases hc with rfl | rfl | rfl | rfl
      · exact htab _ (by omega)
      · exact htab _ (by omega)
      · exact heq
      · exact heq
  | case3 b0 b1 =>
      intro hb c hc
      have h0 : b0 < 256 := hb b0 (by simp)
      have h1 : b1 < 256 := hb b1 (by simp)
      rw [b64EncodeBytes] at hc
      simp only [List.mem_cons, List.not_mem_nil, or_false] at hc
      rcases hc with rfl | rfl | rfl | rfl
      · exact htab _ (by omega)
      · exact htab _ (by omega)
      · exact htab _ (by omega)
      · exact heq
  | case4 b0 b1 b2 rest ih =>
      intro hb c hc
      have h0 : b0 < 256 := hb b0 (by simp)
      have h1 : b1 < 256 := hb b1 (by simp)
      have h2 : b2 < 256 := hb b2 (by simp)
      rw [b64EncodeBytes] at hc
      simp only [List.mem_cons] at hc
      rcases hc with rfl | rfl | rfl | rfl | hc
      · exact htab _ (by omega)
      · exact htab _ (by omega)
      · exact htab _ (by omega)
      · exact htab _ (by omega)
      · exact ih (fun b hbm => hb b (by simp [hbm])) c hc

theorem ne_nl_of_not_ws (c : Char) (h : isWS c = false) : c ≠ '\n' := by
  intro heq
  subst heq
  exact absurd h (by decide)

theorem bodyOf_cons (l : List Char) (bls : List (List Char)) :
    bodyOf (l :: bls) = l ++ '\n' :: bodyOf bls := rfl

theorem bodyOf_ascii (bls : List (List Char))
    (h : ∀ l ∈ bls, ∀ c ∈ l, c.toNat < 128) :
    ∀ c ∈ bodyOf bls, c.toNat < 128 := by
  induction bls with
  | nil => intro c hc; simp [bodyOf] at hc
  | cons l bls ih =>
      intro c hc
      rw [bodyOf_cons] at hc
      rcases List.mem_append.1 hc with h1 | h2
      · exact h l (by simp) c h1
      · rcases List.mem_cons.1 h2 with rfl | h3
        · decide
        · exact ih (fun l' hl' => h l' (by simp [hl'])) c h3

theorem splitBody_prepend (l tail : List Char) (h : ∀ c ∈ l, c ≠ '\n') :
    splitBody (l ++ tail) = (splitBody tail).map (fun p => (l ++ p.1, p.2)) := by
  induction l with
  | nil =>
      rw [List.nil_append]
      cases splitBody tail <;> rfl
  | cons c cs ih =>
      have hc : c ≠ '\n' := h c (by simp)
      rw [List.cons_append, splitBody]
      have hcb : (decide (c = '\n') && startsClose (cs ++ tail)) = false := by
        simp [hc]
      rw [hcb]
      simp only [Bool.false_eq_true, if_false]
      rw [ih (fun d hd => h d (by simp [hd])), Option.map_map]
      cases splitBody tail <;> rfl

theorem startsClose_closer (rest : List Char) :
    startsClose (':' :: ':' :: ':' :: '\n' :: rest) = true := by
  simp [startsClose]

theorem startsClose_line_false (m X : List Char) (hnl : ∀ c ∈ m, c ≠ '\n')
    (hne : m ≠ [':', ':', ':']) : startsClose (m ++ '\n' :: X) = false := by
  rcases m with _ | ⟨c1, m⟩
  · simp [startsClose]
  rcases m with _ | ⟨c2, m⟩
  · simp [startsClose]
  rcases m with _ | ⟨c3, m⟩
  · simp [startsClose]
  rcases m with _ | ⟨c4, m⟩
  · simp only [startsClose, List.cons_append, List.nil_append, List.take_succ_cons,
      List.take, decide_eq_false_iff_not]
    intro heq
    injection heq with e1 heq
    injection heq with e2 heq
    injection heq with e3 _
    exact hne (by rw [e1, e2, e3])
  · have h4 : c4 ≠ '\n' := hnl c4 (by simp)
    simp only [startsClose, List.cons_append, List.take_succ_cons, decide_eq_false_iff_not]
    intro heq
    injection heq with _ heq
    injection heq with _ heq
    injection heq with _ heq
    injection heq with e4 _
    exact h4 e4

theorem splitBody_block (rest : List Char) :
    ∀ bls : List (List Char), bls ≠ [] →
      (∀ l ∈ bls, (∀ c ∈ l, c ≠ '\n') ∧ l ≠ [':', ':', ':']) →
      splitBody (bodyOf bls ++ ':' :: ':' :: ':' :: '\n' :: rest) = some (bodyOf bls, rest) := by
  intro bls
  induction bls with
  | nil => intro h; exact absurd rfl h
  | cons l bls ih =>
      intro _ hgood
      rw [bodyOf_cons, List.append_assoc, List.cons_append,
        splitBody_prepend l _ (fun c hc => (hgood l (by simp)).1 c hc)]
      rw [splitBody]
      match bls with
      | [] =>
          rw [show bodyOf ([] : List (List Char)) = [] from rfl]
          simp [startsClose_closer, bodyOf]
      | m :: bls' =>
          have hsc : startsClose (bodyOf (m :: bls') ++ ':' :: ':' :: ':' :: '\n' :: rest) = false := by
            rw [bodyOf_cons, List.append_assoc, List.cons_append]
            exact startsClose_line_false m _ (fun c hc => (hgood m (by simp)).1 c hc)
              (hgood m (by simp)).2
          rw [hsc]
          simp only [Bool.and_false, Bool.false_eq_true, if_false]
          rw [ih (by simp) (fun l' hl' => hgood l' (by simp [hl'])), Option.map_some',
            Option.map_some']

theorem matchBlockAt_single (name : String) (bls : List String)
    (hn : goodName name) (hb : goodBodyLines bls) :
    matchBlockAt (blockStr name bls).data =
      some (name.data, bodyOf (bls.map String.data), []) := by
  have hnl : ∀ c ∈ name.data, c ≠ '\n' := fun c hc => ne_nl_of_not_ws c (hn.2 c hc)
  have hblsgood : ∀ l ∈ bls.map String.data, (∀ c ∈ l, c ≠ '\n') ∧ l ≠ [':', ':', ':'] := by
    intro l hl
    rcases List.mem_map.1 hl with ⟨s, hs, rfl⟩
    exact ⟨fun c hc => (hb s hs).1 c hc |>.1, (hb s hs).2⟩
  have htk : (name.data ++ '\n' :: (bodyOf (bls.map String.data) ++ [':', ':', ':', '\n'])).takeWhile
      (fun c => decide (c ≠ '\n')) = name.data :=
    takeWhile_all_append _ _ _ _ (fun c hc => by simp [hnl c hc]) (by simp)
  have hdr : (name.data ++ '\n' :: (bodyOf (bls.map String.data) ++ [':', ':', ':', '\n'])).dropWhile
      (fun c => decide (c ≠ '\n')) = '\n' :: (bodyOf (bls.map String.data) ++ [':', ':', ':', '\n']) :=
    dropWhile_all_append _ _ _ _ (fun c hc => by simp [hnl c hc]) (by simp)
  have hne : name.data.isEmpty = false := by
    cases hd : name.data with
    | nil => exact absurd hd hn.1
    | cons a l => rfl
  show matchBlockAt (':' :: ':' :: ':' :: ' ' :: (name.data ++
    '\n' :: (bodyOf (bls.map String.data) ++ [':', ':', ':', '\n']))) = _
  simp only [matchBlockAt, htk, hdr, hne, Bool.false_eq_true, if_false]
  match bls with
  | [] =>
      show (match splitBody ([] ++ [':', ':', ':', '\n']) with
        | some (b, r) => some (name.data, b, r)
        | Option.none =>
            if startsClose ([] ++ [':', ':', ':', '\n'])
            then some (name.data, [], ([] ++ [':', ':', ':', '\n']).drop 4)
            else Option.none) = _
      rw [List.nil_append,
        show splitBody [':', ':', ':', '\n'] = Option.none from by decide,
        show startsClose [':', ':', ':', '\n'] = true from by decide]
      rfl
  | b :: bls' =>
      rw [show ((b :: bls').map String.data) = b.data :: bls'.map String.data from rfl,
        show ([':', ':', ':', '\n'] : List Char) = ':' :: ':' :: ':' :: '\n' :: [] from rfl,
        splitBody_block [] (b.data :: bls'.map String.data) (by simp)
          (fun l hl => hblsgood l (by simpa using hl))]
      simp

theorem preEncodeLoop_nil (enc : List Char → List Char) (f : Nat) (ls : Bool) :
    preEncodeLoop enc f ls [] = [] := by
  cases f <;> rfl

theorem preEncode_single (name : String) (bls : List String)
    (hn : goodName name) (hb : goodBodyLines bls) :
    preEncode (blockStr name bls) =
      ⟨':' :: ':' :: ':' :: ' ' :: name.data ++
        ' ' :: b64EncodeBytes (utf8Bytes (bodyOf (bls.map String.data)))⟩ := by
  have hm := matchBlockAt_single name bls hn hb
  rw [show (blockStr name bls).data = ':' :: ':' :: ':' :: ' ' :: (name.data ++
    '\n' :: (bodyOf (bls.map String.data) ++ [':', ':', ':', '\n'])) from rfl] at hm
  rw [preEncode]
  congr 1
  show preEncodeLoop _ ((blockStr name bls).length + 1) true (':' :: ':' :: ':' :: ' ' :: (name.data ++
    '\n' :: (bodyOf (bls.map String.data) ++ [':', ':', ':', '\n']))) = _
  rw [preEncodeLoop]
  simp only [if_true, hm, preEncodeLoop_nil, List.append_nil]

theorem parseEncodedLine_enc (name payload : List Char)
    (hne : name ≠ []) (hn : ∀ c ∈ name, isWS c = false)
    (hp : ∀ c ∈ payload, isWS c = false) :
    parseEncodedLine (':' :: ':' :: ':' :: ' ' :: (name ++ ' ' :: payload)) =
      some (name, payload) := by
  have htk := takeWhile_all_append (fun c => !(isWS c)) name ' ' payload
      (fun c hc => by simp [hn c hc]) (by decide)
  have hdr := dropWhile_all_append (fun c => !(isWS c)) name ' ' payload
      (fun c hc => by simp [hn c hc]) (by decide)
  have hne' : name.isEmpty = false := by
    cases h : name with
    | nil => exact absurd h hne
    | cons a l => rfl
  simp only [parseEncodedLine, htk, hdr, hne', Bool.false_eq_true, if_false]
  rw [if_pos (List.all_eq_true.2 (fun c hc => by simp [hp c hc]))]

theorem parseEncodedLine_header (name : List Char) (hn : ∀ c ∈ name, isWS c = false) :
    parseEncodedLine (':' :: ':' :: ':' :: ' ' :: name) = Option.none := by
  cases hd : name with
  | nil => rfl
  | cons a l =>
      have htk : (a :: l).takeWhile (fun c => !(isWS c)) = a :: l :=
        List.takeWhile_eq_self_iff.2 (fun c hc => by simp [hn c (hd ▸ hc)])
      have hdr : (a :: l).dropWhile (fun c => !(isWS c)) = [] :=
        List.dropWhile_eq_nil_iff.2 (fun c hc => by simp [hn c (hd ▸ hc)])
      simp only [parseEncodedLine, htk, hdr]
      rfl

theorem splitNl_bodyOf (bls : List (List Char)) (h : ∀ l ∈ bls, ∀ c ∈ l, c ≠ '\n') :
    splitNl (bodyOf bls ++ [':', ':', ':', '\n']) = bls ++ [[':', ':', ':'], []] := by
  induction bls with
  | nil =>
      rw [show bodyOf ([] : List (List Char)) = [] from rfl, List.nil_append]
      rfl
  | cons l bls ih =>
      rw [bodyOf_cons, List.append_assoc, List.cons_append,
        splitNl_append_cons l _ (h l (by simp)),
        ih (fun l' hl' => h l' (by simp [hl']))]
      rfl

/-- C6 (counterexample): for the markup string consisting of the two
well-formed component blocks `::: A / a / :::` and `::: B / b / :::`,
applying the parse-side pre-pass and then the serialize-side
post-pass does not restore the string: the pre-pass replacement
carries no trailing newline, so the two encoded lines are glued into
the single line `::: A YQo=::: B Ygo=`, which the post-pass pattern
(whose payload capture admits no further space) cannot decode. -/
theorem c6_counterexample :
    postDecode (preEncode "::: A\na\n:::\n::: B\nb\n:::\n") ≠
      "::: A\na\n:::\n::: B\nb\n:::\n" ∧
    postDecode (preEncode "::: A\na\n:::\n::: B\nb\n:::\n") =
      "::: A YQo=::: B Ygo=" := by
  constructor
  · decide
  · decide

/-- C6 (amended): for a markup string consisting of a single
well-formed component block whose name is nonempty and
whitespace-free and whose body lines are ASCII, contain no line
`:::`, and none of which matches the single-line encoded pattern,
the parse-side pre-pass followed by the serialize-side post-pass
restores the string exactly, and no line of the restored output
matches the single-line encoded pattern. -/
theorem postDecode_encLine (name : String) (bls : List String)
    (hn : goodName name) (hb : goodBodyLines bls) :
    postDecode ⟨':' :: ':' :: ':' :: ' ' :: name.data ++
      ' ' :: b64EncodeBytes (utf8Bytes (bodyOf (bls.map String.data)))⟩ = blockStr name bls := by
  have hascii : ∀ c ∈ bodyOf (bls.map String.data), c.toNat < 128 :=
    bodyOf_ascii _ (by
      intro l hl c hc
      rcases List.mem_map.1 hl with ⟨s, hs, rfl⟩
      exact ((hb s hs).1 c hc).2.2)
  have hbytes : ∀ b ∈ utf8Bytes (bodyOf (bls.map String.data)), b < 256 := by
    rw [utf8Bytes_ascii _ hascii]
    intro b hbm
    rcases List.mem_map.1 hbm with ⟨c, hc, rfl⟩
    exact Nat.lt_of_lt_of_le (hascii c hc) (by omega)
  have hplain := b64EncodeBytes_plain _ hbytes
  rw [postDecode]
  have hLnl : ∀ c ∈ ':' :: ':' :: ':' :: ' ' ::
      (name.data ++ ' ' :: b64EncodeBytes (utf8Bytes (bodyOf (bls.map String.data)))), c ≠ '\n' := by
    intro c hc
    simp only [List.mem_cons, List.mem_append] at hc
    rcases hc with rfl | rfl | rfl | rfl | hc | rfl | hc
    · decide
    · decide
    · decide
    · decide
    · exact ne_nl_of_not_ws c (hn.2 c hc)
    · decide
    · exact ne_nl_of_not_ws c (hplain c hc).1
  rw [show (⟨':' :: ':' :: ':' :: ' ' :: name.data ++
      ' ' :: b64EncodeBytes (utf8Bytes (bodyOf (bls.map String.data)))⟩ : String).data =
    ':' :: ':' :: ':' :: ' ' ::
      (name.data ++ ' ' :: b64EncodeBytes (utf8Bytes (bodyOf (bls.map String.data)))) from rfl]
  rw [splitNl_no_nl _ hLnl, List.map_cons, List.map_nil, decodeLineWith,
    parseEncodedLine_enc name.data _ hn.1 hn.2 (fun c hc => (hplain c hc).1)]
  show (⟨':' :: ':' :: ':' :: ' ' :: name.data ++ '\n' ::
    (utf8Decode (b64DecodeBytes (b64EncodeBytes (utf8Bytes (bodyOf (bls.map String.data))))) ++
      [':', ':', ':', '\n'])⟩ : String) = _
  rw [b64_string_roundtrip_ascii _ hascii]
  rfl

theorem c6_block_roundtrip (name : String) (bls : List String)
    (hn : goodName name) (hb : goodBodyLines bls)
    (hlines : ∀ l ∈ bls, (parseEncodedLine l.data).isSome = false) :
    postDecode (preEncode (blockStr name bls)) = blockStr name bls ∧
    ∀ l ∈ splitNl (blockStr name bls).data, (parseEncodedLine l).isSome = false := by
  have hheadnl : ∀ c ∈ ':' :: ':' :: ':' :: ' ' :: name.data, c ≠ '\n' := by
    intro c hc
    simp only [List.mem_cons] at hc
    rcases hc with rfl | rfl | rfl | rfl | hc
    · decide
    · decide
    · decide
    · decide
    · exact ne_nl_of_not_ws c (hn.2 c hc)
  constructor
  · rw [preEncode_single name bls hn hb]
    exact postDecode_encLine name bls hn hb
  · show ∀ l ∈ splitNl ((':' :: ':' :: ':' :: ' ' :: name.data) ++
      '\n' :: (bodyOf (bls.map String.data) ++ [':', ':', ':', '\n'])), (parseEncodedLine l).isSome = false
    rw [splitNl_append_cons _ _ hheadnl,
      splitNl_bodyOf _ (by
        intro l hl c hc
        rcases List.mem_map.1 hl with ⟨s, hs, rfl⟩
        exact ((hb s hs).1 c hc).1)]
    intro l hl
    rcases List.mem_cons.1 hl with rfl | hl
    · rw [parseEncodedLine_header name.data hn.2]
      rfl
    rcases List.mem_append.1 hl with hl | hl
    · rcases List.mem_map.1 hl with ⟨s, hs, rfl⟩
      exact hlines s hs
    rcases List.mem_cons.1 hl with rfl | hl
    · rfl
    rcases List.mem_cons.1 hl with rfl | hl
    · rfl
    · simp at hl

/-- C6 (witness): the amended round trip at the concrete block
`::: note / a / :::`. -/
theorem c6_block_roundtrip_witness :
    postDecode (preEncode (blockStr "note" ["a"])) = blockStr "note" ["a"] ∧
    ∀ l ∈ splitNl (blockStr "note" ["a"]).data, (parseEncodedLine l).isSome = false :=
  c6_block_roundtrip "note" ["a"] (by decide) (by decide) (by decide)

theorem parseInline_nil (f : Nat) : parseInline f [] = [] := by
  cases f <;> rfl

theorem itemsToInlines_nil (f : Nat) : itemsToInlines f [] = [] := by
  cases f <;> rfl

theorem groupParas_nil (f : Nat) : groupParas f [] = [] := by
  cases f <;> rfl

theorem rawTok_nonspecial (c : Char) (rest : List Char) (h : isSpecialChar c = false) :
    rawTok (c :: rest) = Option.none := by
  have h1 : ¬c = '*' := by intro e; subst e; simp [isSpecialChar] at h
  have h2 : ¬c = '_' := by intro e; subst e; simp [isSpecialChar] at h
  have h3 : ¬c = '~' := by intro e; subst e; simp [isSpecialChar] at h
  have h4 : ¬c = '`' := by intro e; subst e; simp [isSpecialChar] at h
  have h5 : ¬c = '[' := by intro e; subst e; simp [isSpecialChar] at h
  have h6 : ¬c = '!' := by intro e; subst e; simp [isSpecialChar] at h
  have h7 : ¬c = '<' := by intro e; subst e; simp [isSpecialChar] at h
  have hhtml : tokHtml (c :: rest) = Option.none := by
    simp only [tokHtml, if_neg h7]
  have himage : tokImage (c :: rest) = Option.none := by
    cases rest with
    | nil => rfl
    | cons d r =>
        simp only [tokImage]
        rw [if_neg (by simp [h6])]
  have hlink : tokLink (c :: rest) = Option.none := by
    simp only [tokLink, if_neg h5]
  have hstrong : tokStrong (c :: rest) = Option.none := by
    cases rest with
    | nil => rfl
    | cons d r =>
        simp only [tokStrong]
        rw [if_neg (by simp [h1, h2])]
  have hemph : tokEmph (c :: rest) = Option.none := by
    simp only [tokEmph]
    rw [if_neg (by simp [h1, h2])]
  have hdel : tokDelete (c :: rest) = Option.none := by
    cases rest with
    | nil => rfl
    | cons d r =>
        simp only [tokDelete]
        rw [if_neg (by simp [h3])]
  have hcode : tokCode (c :: rest) = Option.none := by
    simp only [tokCode, if_neg h4]
  rw [rawTok, hhtml, himage, hlink, hstrong, hemph, hdel, hcode]
  rfl

theorem parseInline_text (cs : List Char) (hne : cs ≠ [])
    (h : ∀ c ∈ cs, isSpecialChar c = false) (f : Nat) :
    parseInline (f + 1) cs = [.text ⟨cs⟩] := by
  match cs with
  | c :: rest =>
      rw [parseInline, rawTok_nonspecial c rest (h c (by simp))]
      show (if isSpecialChar c = true then _ else _) = _
      rw [if_neg (by simp [h c (by simp)])]
      rw [List.takeWhile_eq_self_iff.2 (fun d hd => by simp [h d hd]),
        List.dropWhile_eq_nil_iff.2 (fun d hd => by simp [h d hd]),
        parseInline_nil]

theorem trimEnd_closeFence (X : List Char) :
    trimEnd ⟨X ++ [':', ':', ':', '\n']⟩ = ⟨X ++ [':', ':', ':']⟩ := by
  rw [trimEnd]
  congr 1
  show ((X ++ [':', ':', ':', '\n']).reverse.dropWhile isWS).reverse = X ++ [':', ':', ':']
  rw [List.reverse_append]
  show (List.dropWhile isWS ('\n' :: ':' :: ':' :: ':' :: X.reverse)).reverse = _
  rw [List.dropWhile_cons_of_pos (by decide), List.dropWhile_cons_of_neg (by decide)]
  simp

theorem markdownToSlate_block (plugins : String → Option Unit)
    (name : String) (bls : List String)
    (hn : goodName name) (hsp : ∀ c ∈ name.data, isSpecialChar c = false)
    (hb : goodBodyLines bls)
    (hlook : plugins name = Option.none) :
    markdownToSlate plugins (blockStr name bls) =
      ⟨[.para [.textNode [⟨⟨':' :: ':' :: ':' :: ' ' ::
        (name.data ++ ' ' :: b64EncodeBytes (utf8Bytes (bodyOf (bls.map String.data))))⟩,
        MarkSet.none⟩]]]⟩ := by
  have hascii : ∀ c ∈ bodyOf (bls.map String.data), c.toNat < 128 :=
    bodyOf_ascii _ (by
      intro l hl c hc
      rcases List.mem_map.1 hl with ⟨s, hs, rfl⟩
      exact ((hb s hs).1 c hc).2.2)
  have hbytes : ∀ b ∈ utf8Bytes (bodyOf (bls.map String.data)), b < 256 := by
    rw [utf8Bytes_ascii _ hascii]
    intro b hbm
    rcases List.mem_map.1 hbm with ⟨c, hc, rfl⟩
    exact Nat.lt_of_lt_of_le (hascii c hc) (by omega)
  have hplain := b64EncodeBytes_plain _ hbytes
  have hLnl : ∀ c ∈ ':' :: ':' :: ':' :: ' ' ::
      (name.data ++ ' ' :: b64EncodeBytes (utf8Bytes (bodyOf (bls.map String.data)))), c ≠ '\n' := by
    intro c hc
    simp only [List.mem_cons, List.mem_append] at hc
    rcases hc with rfl | rfl | rfl | rfl | hc | rfl | hc
    · decide
    · decide
    · decide
    · decide
    · exact ne_nl_of_not_ws c (hn.2 c hc)
    · decide
    · exact ne_nl_of_not_ws c (hplain c hc).1
  have hLsp : ∀ c ∈ ':' :: ':' :: ':' :: ' ' ::
      (name.data ++ ' ' :: b64EncodeBytes (utf8Bytes (bodyOf (bls.map String.data)))),
      isSpecialChar c = false := by
    intro c hc
    simp only [List.mem_cons, List.mem_append] at hc
    rcases hc with rfl | rfl | rfl | rfl | hc | rfl | hc
    · decide
    · decide
    · decide
    · decide
    · exact hsp c hc
    · decide
    · exact (hplain c hc).2
  rw [markdownToSlate, markdownToRemark, preEncode_single name bls hn hb, parseMd]
  rw [show (⟨':' :: ':' :: ':' :: ' ' :: name.data ++
      ' ' :: b64EncodeBytes (utf8Bytes (bodyOf (bls.map String.data)))⟩ : String).data =
    ':' :: ':' :: ':' :: ' ' ::
      (name.data ++ ' ' :: b64EncodeBytes (utf8Bytes (bodyOf (bls.map String.data)))) from rfl]
  rw [splitNl_no_nl _ hLnl]
  rw [groupParas]
  show slateFromMdast (shortcodePass plugins ⟨List.map _
    (joinNl (List.takeWhile _ [':' :: ':' :: ':' :: ' ' ::
      (name.data ++ ' ' :: b64EncodeBytes (utf8Bytes (bodyOf (bls.map String.data))))]) ::
      groupParas _ (List.dropWhile _ [_]))⟩) = _
  rw [show List.takeWhile (fun x => !x.isEmpty) [':' :: ':' :: ':' :: ' ' ::
      (name.data ++ ' ' :: b64EncodeBytes (utf8Bytes (bodyOf (bls.map String.data))))] =
    [':' :: ':' :: ':' :: ' ' ::
      (name.data ++ ' ' :: b64EncodeBytes (utf8Bytes (bodyOf (bls.map String.data))))] from rfl]
  rw [show List.dropWhile (fun x : List Char => !x.isEmpty) [':' :: ':' :: ':' :: ' ' ::
      (name.data ++ ' ' :: b64EncodeBytes (utf8Bytes (bodyOf (bls.map String.data))))] =
    [] from rfl]
  rw [groupParas_nil, joinNl, List.map_cons, List.map_nil]
  rw [parseInline_text _ (by simp) hLsp]
  rw [show mergeTexts [MdInline.text ⟨':' :: ':' :: ':' :: ' ' ::
      (name.data ++ ' ' :: b64EncodeBytes (utf8Bytes (bodyOf (bls.map String.data))))⟩] =
    [MdInline.text ⟨':' :: ':' :: ':' :: ' ' ::
      (name.data ++ ' ' :: b64EncodeBytes (utf8Bytes (bodyOf (bls.map String.data))))⟩] from rfl]
  rw [shortcodePass, List.map_cons, List.map_nil, shortcodeBlock,
    parseEncodedLine_enc name.data _ hn.1 hn.2 (fun c hc => (hplain c hc).1)]
  have hlook' : plugins ⟨name.data⟩ = Option.none := hlook
  simp only [hlook']
  rfl

theorem slateToMarkdown_encDoc (plugins : String → Option Unit)
    (name : String) (bls : List String)
    (hn : goodName name) (hb : goodBodyLines bls) :
    slateToMarkdown plugins ⟨[.para [.textNode [⟨⟨':' :: ':' :: ':' :: ' ' ::
        (name.data ++ ' ' :: b64EncodeBytes (utf8Bytes (bodyOf (bls.map String.data))))⟩,
        MarkSet.none⟩]]]⟩ =
      ⟨':' :: ':' :: ':' :: ' ' :: name.data ++
        '\n' :: (bodyOf (bls.map String.data) ++ [':', ':', ':'])⟩ := by
  rw [slateToMarkdown, remarkToMarkdown]
  rw [show slateToRemark plugins ⟨[.para [.textNode [⟨⟨':' :: ':' :: ':' :: ' ' ::
      (name.data ++ ' ' :: b64EncodeBytes (utf8Bytes (bodyOf (bls.map String.data))))⟩,
      MarkSet.none⟩]]]⟩ =
    ⟨[.paragraph [.text ⟨':' :: ':' :: ':' :: ' ' ::
      (name.data ++ ' ' :: b64EncodeBytes (utf8Bytes (bodyOf (bls.map String.data))))⟩]]⟩ from rfl]
  rw [show (some (⟨[.paragraph [.text ⟨':' :: ':' :: ':' :: ' ' ::
      (name.data ++ ' ' :: b64EncodeBytes (utf8Bytes (bodyOf (bls.map String.data))))⟩]]⟩ :
        Mdast)).getD emptyMdast =
    ⟨[.paragraph [.text ⟨':' :: ':' :: ':' :: ' ' ::
      (name.data ++ ' ' :: b64EncodeBytes (utf8Bytes (bodyOf (bls.map String.data))))⟩]]⟩ from rfl]
  have hstr : stringifyMdast ⟨[.paragraph [.text ⟨':' :: ':' :: ':' :: ' ' ::
      (name.data ++ ' ' :: b64EncodeBytes (utf8Bytes (bodyOf (bls.map String.data))))⟩]]⟩ =
    ⟨':' :: ':' :: ':' :: ' ' :: name.data ++
      ' ' :: b64EncodeBytes (utf8Bytes (bodyOf (bls.map String.data)))⟩ := by
    rw [stringifyMdast]
    congr 1
    show joinNl2 [((⟨':' :: ':' :: ':' :: ' ' ::
      (name.data ++ ' ' :: b64EncodeBytes (utf8Bytes (bodyOf (bls.map String.data))))⟩ : String) ++
        "").data] = _
    rw [joinNl2, String.data_append]
    simp [List.append_assoc]
  rw [hstr, postDecode_encLine name bls hn hb]
  have hassoc : blockStr name bls = ⟨(':' :: ':' :: ':' :: ' ' :: name.data ++
      '\n' :: bodyOf (bls.map String.data)) ++ [':', ':', ':', '\n']⟩ := by
    rw [blockStr]
    congr 1
    simp [List.append_assoc]
  rw [hassoc, trimEnd_closeFence]
  congr 1
  simp [List.append_assoc]

theorem alnum_not_special (c : Char) (h : c.isAlphanum = true) : isSpecialChar c = false := by
  have h1 : ¬c = '*' := by intro e; subst e; exact absurd h (by decide)
  have h2 : ¬c = '_' := by intro e; subst e; exact absurd h (by decide)
  have h3 : ¬c = '~' := by intro e; subst e; exact absurd h (by decide)
  have h4 : ¬c = '`' := by intro e; subst e; exact absurd h (by decide)
  have h5 : ¬c = '[' := by intro e; subst e; exact absurd h (by decide)
  have h6 : ¬c = '!' := by intro e; subst e; exact absurd h (by decide)
  have h7 : ¬c = '<' := by intro e; subst e; exact absurd h (by decide)
  rw [isSpecialChar]
  simp [h1, h2, h3, h4, h5, h6, h7]

theorem alnum_ne_colon (c : Char) (h : c.isAlphanum = true) : c ≠ ':' := by
  intro e
  subst e
  exact absurd h (by decide)

theorem splitBody_mem (s : List Char) :
    ∀ b r, splitBody s = some (b, r) →
      (∀ c ∈ b, c ∈ s) ∧ (∀ c ∈ r, c ∈ s) := by
  induction s with
  | nil => intro b r h; simp [splitBody] at h
  | cons a rest ih =>
      intro b r h
      rw [splitBody] at h
      by_cases hc : (decide (a = '\n') && startsClose rest) = true
      · rw [if_pos hc] at h
        injection h with h
        injection h with h1 h2
        subst h1
        subst h2
        refine ⟨by simp, ?_⟩
        intro c hcm
        exact List.mem_cons_of_mem a ((List.drop_sublist 4 rest).mem hcm)
      · rw [if_neg hc] at h
        cases hsp : splitBody rest with
        | none => rw [hsp] at h; simp at h
        | some p =>
            rw [hsp] at h
            injection h with h
            cases p with
            | mk b' r' =>
                injection h with h1 h2
                subst h1
                subst h2
                rcases ih b' r' hsp with ⟨hb', hr'⟩
                constructor
                · intro c hcm
                  rcases List.mem_cons.1 hcm with rfl | hcm
                  · simp
                  · exact List.mem_cons_of_mem a (hb' c hcm)
                · intro c hcm
                  exact List.mem_cons_of_mem a (hr' c hcm)

theorem dropWhile_head_not (p : Char → Bool) (l : List Char) :
    ∀ c rest, l.dropWhile p = c :: rest → p c = false := by
  induction l with
  | nil => intro c rest h; simp [List.dropWhile] at h
  | cons a l ih =>
      intro c rest h
      rw [List.dropWhile_cons] at h
      by_cases hp : p a = true
      · rw [if_pos hp] at h
        exact ih c rest h
      · rw [if_neg hp] at h
        injection h with h1 _
        subst h1
        exact Bool.eq_false_iff.2 hp

theorem matchBlockAt_mem (s : List Char) (n b r : List Char)
    (h : matchBlockAt s = some (n, b, r)) :
    (∀ c ∈ b, c ∈ s) ∧ (∀ c ∈ r, c ∈ s) := by
  match s with
  | [] => simp [matchBlockAt] at h
  | [c1] => simp [matchBlockAt] at h
  | [c1, c2] => simp [matchBlockAt] at h
  | [c1, c2, c3] => simp [matchBlockAt] at h
  | c1 :: c2 :: c3 :: c4 :: rest =>
      rw [matchBlockAt] at h
      by_cases hg : c1 = ':' ∧ c2 = ':' ∧ c3 = ':' ∧ c4 = ' '
      swap
      · rw [if_neg hg] at h
        simp at h
      rw [if_pos hg] at h
      by_cases hne : (rest.takeWhile (fun c => decide (c ≠ '\n'))).isEmpty = true
      · rw [if_pos hne] at h
        simp at h
      rw [if_neg hne] at h
      have hmem4 : ∀ c : Char, c ∈ rest → c ∈ c1 :: c2 :: c3 :: c4 :: rest := by
        intro c hc
        simp [hc]
      cases hd : rest.dropWhile (fun c => decide (c ≠ '\n')) with
      | nil => rw [hd] at h; simp at h
      | cons d rem =>
          have hdn : d = '\n' := by
            have := dropWhile_head_not (fun c => decide (c ≠ '\n')) rest d rem hd
            simpa using this
          subst hdn
          rw [hd] at h
          have h' : (match splitBody rem with
            | some (b, r) => some (rest.takeWhile (fun c => decide (c ≠ '\n')), b, r)
            | Option.none =>
                if startsClose rem = true then
                  some (rest.takeWhile (fun c => decide (c ≠ '\n')), [], rem.drop 4)
                else Option.none) = some (n, b, r) := h
          have hrem : ∀ c ∈ rem, c ∈ rest := by
            intro c hc
            exact (List.dropWhile_sublist (l := rest) (p := fun c => decide (c ≠ '\n'))).mem
              (hd ▸ List.mem_cons_of_mem _ hc)
          cases hsb : splitBody rem with
          | some p =>
              rw [hsb] at h'
              cases p with
              | mk b' r' =>
                  injection h' with h'
                  injection h' with h1 h'
                  injection h' with h2 h3
                  subst h2
                  subst h3
                  rcases splitBody_mem rem b' r' hsb with ⟨hb', hr'⟩
                  exact ⟨fun c hc => hmem4 c (hrem c (hb' c hc)),
                    fun c hc => hmem4 c (hrem c (hr' c hc))⟩
          | none =>
              rw [hsb] at h'
              by_cases hsc : startsClose rem = true
              · rw [if_pos hsc] at h'
                injection h' with h'
                injection h' with h1 h'
                injection h' with h2 h3
                subst h2
                subst h3
                refine ⟨by simp, ?_⟩
                intro c hc
                exact hmem4 c (hrem c ((List.drop_sublist 4 rem).mem hc))
              · rw [if_neg hsc] at h'
                simp at h'

theorem preMatchedBodies_mem :
    ∀ (f : Nat) (ls : Bool) (s : List Char) (body : List Char),
      body ∈ preMatchedBodies f ls s → ∀ c ∈ body, c ∈ s := by
  intro f
  induction f with
  | zero => intro ls s body hb; simp [preMatchedBodies] at hb
  | succ f ih =>
      intro ls s body hb
      match s with
      | [] => simp [preMatchedBodies] at hb
      | a :: rest =>
          rw [preMatchedBodies] at hb
          cases ls with
          | false =>
              have hb' : body ∈ preMatchedBodies f (decide (a = '\n')) rest := hb
              intro c hc
              exact List.mem_cons_of_mem a (ih _ rest body hb' c hc)
          | true =>
              cases hm : matchBlockAt (a :: rest) with
              | none =>
                  have hb' : body ∈
                      (match matchBlockAt (a :: rest) with
                       | some (_, body, r) => body :: preMatchedBodies f true r
                       | Option.none => preMatchedBodies f (decide (a = '\n')) rest) := hb
                  rw [hm] at hb'
                  have hb'' : body ∈ preMatchedBodies f (decide (a = '\n')) rest := hb'
                  intro c hc
                  exact List.mem_cons_of_mem a (ih _ rest body hb'' c hc)
              | some t =>
                  rcases t with ⟨n, body', r⟩
                  have hb' : body ∈
                      (match matchBlockAt (a :: rest) with
                       | some (_, body, r) => body :: preMatchedBodies f true r
                       | Option.none => preMatchedBodies f (decide (a = '\n')) rest) := hb
                  rw [hm] at hb'
                  have hb'' : body ∈ body' :: preMatchedBodies f true r := hb'
                  rcases List.mem_cons.1 hb'' with rfl | hb3
                  · exact (matchBlockAt_mem _ n body r hm).1
                  · intro c hc
                    exact (matchBlockAt_mem _ n body' r hm).2 c (ih _ r body hb3 c hc)

theorem noTrailingWS_trimEnd (s : String) : noTrailingWS (trimEnd s) := by
  intro c hc
  have hc' : ((s.data.reverse.dropWhile isWS).reverse).getLast? = some c := hc
  rw [List.getLast?_reverse] at hc'
  cases hdw : s.data.reverse.dropWhile isWS with
  | nil => rw [hdw] at hc'; simp at hc'
  | cons a l =>
      rw [hdw] at hc'
      simp only [List.head?_cons, Option.some_inj] at hc'
      subst hc'
      exact dropWhile_head_not isWS _ a l hdw

/-- C8 (counterexample): in a browser environment the entry points
are not total: `markdownToRemark` on the well-formed UTF-8 markup
string `::: a\n€\n:::\n` raises an `InvalidCharacterError` from
`window.btoa` (modelled as no result), because the component body
`€\n` contains a character above `U+00FF`. -/
theorem c8_browser_exception :
    (markdownToRemarkB noPlugins "::: a\n€\n:::\n").isSome = false := by decide

/-- C8 (amended): for every Latin-1 markup string (all code points
below 256) `markdownToRemark` returns a result even on the browser
path — the base64 encoding of every matched component body
succeeds. -/
theorem c8_browser_total_latin1 (plugins : String → Option Unit) (md : String)
    (h : ∀ c ∈ md.data, c.toNat < 256) :
    (markdownToRemarkB plugins md).isSome = true := by
  rw [markdownToRemarkB, preEncodeB]
  rw [if_pos (List.all_eq_true.2 (fun body hb => List.all_eq_true.2
    (fun c hc => by simpa using h c (preMatchedBodies_mem _ _ _ body hb c hc))))]
  rfl

/-- C8 (witness): the amended totality at the concrete Latin-1
input `a`. -/
theorem c8_browser_total_latin1_witness :
    (markdownToRemarkB noPlugins "a").isSome = true :=
  c8_browser_total_latin1 noPlugins "a" (by decide)

/-- C10 (counterexample): in a browser environment
`remarkToMarkdown` has an error outcome: on the tree holding the
paragraph text `::: a b`, the stringified output matches the encoded
component pattern and `window.atob('b')` raises (modelled as no
result). -/
theorem c10_browser_exception :
    (remarkToMarkdownB (some ⟨[.paragraph [.text "::: a b"]]⟩)).isSome = false := by decide

/-- C10 (amended): `remarkToMarkdown` with no input tree substitutes
the empty single-paragraph tree (a root with one paragraph with one
empty text node) and returns the empty string, and for every input
tree the returned string has all trailing whitespace stripped; on
the Node path there is no error outcome (the function is total by
construction). -/
theorem c10_empty_tree_and_trim :
    remarkToMarkdown Option.none = remarkToMarkdown (some ⟨[.paragraph [.text ""]]⟩) ∧
    remarkToMarkdown Option.none = "" ∧
    ∀ t : Mdast, noTrailingWS (remarkToMarkdown (some t)) := by
  refine ⟨rfl, by decide, fun t => noTrailingWS_trimEnd _⟩

theorem splitBody_close_fence (s : List Char) :
    ∀ b r, splitBody s = some (b, r) → s = b ++ ':' :: ':' :: ':' :: '\n' :: r := by
  induction s with
  | nil => intro b r h; simp [splitBody] at h
  | cons a rest ih =>
      intro b r h
      rw [splitBody] at h
      by_cases hc : (decide (a = '\n') && startsClose rest) = true
      · rw [if_pos hc] at h
        injection h with h
        injection h with h1 h2
        subst h1
        subst h2
        have hsc : rest.take 4 = [':', ':', ':', '\n'] := by
          rw [Bool.and_eq_true] at hc
          simpa [startsClose] using hc.2
        show a :: rest = a :: (':' :: ':' :: ':' :: '\n' :: rest.drop 4)
        congr 1
        conv_lhs => rw [← List.take_append_drop 4 rest, hsc]
        rfl
      · rw [if_neg hc] at h
        cases hsp : splitBody rest with
        | none => rw [hsp] at h; simp at h
        | some p =>
            rw [hsp] at h
            injection h with h
            cases p with
            | mk b' r' =>
                injection h with h1 h2
                subst h1
                subst h2
                show a :: rest = a :: (b' ++ ':' :: ':' :: ':' :: '\n' :: r')
                congr 1
                exact ih b' r' hsp

theorem matchBlockAt_close_fence (s : List Char) (n b r : List Char)
    (h : matchBlockAt s = some (n, b, r)) :
    [':', ':', ':', '\n'] <:+: s := by
  match s with
  | [] => simp [matchBlockAt] at h
  | [c1] => simp [matchBlockAt] at h
  | [c1, c2] => simp [matchBlockAt] at h
  | [c1, c2, c3] => simp [matchBlockAt] at h
  | c1 :: c2 :: c3 :: c4 :: rest =>
      rw [matchBlockAt] at h
      by_cases hg : c1 = ':' ∧ c2 = ':' ∧ c3 = ':' ∧ c4 = ' '
      swap
      · rw [if_neg hg] at h
        simp at h
      rw [if_pos hg] at h
      by_cases hne : (rest.takeWhile (fun c => decide (c ≠ '\n'))).isEmpty = true
      · rw [if_pos hne] at h
        simp at h
      rw [if_neg hne] at h
      have hsubinf : ∀ x : List Char, x <:+: rest → x <:+: c1 :: c2 :: c3 :: c4 :: rest := by
        intro x hx
        exact hx.trans (List.suffix_cons c4 rest).isInfix |>.trans
          (List.suffix_cons c3 _).isInfix |>.trans (List.suffix_cons c2 _).isInfix |>.trans
          (List.suffix_cons c1 _).isInfix
      cases hd : rest.dropWhile (fun c => decide (c ≠ '\n')) with
      | nil => rw [hd] at h; simp at h
      | cons d rem =>
          have hdn : d = '\n' := by
            have := dropWhile_head_not (fun c => decide (c ≠ '\n')) rest d rem hd
            simpa using this
          subst hdn
          rw [hd] at h
          have h' : (match splitBody rem with
            | some (b, r) => some (rest.takeWhile (fun c => decide (c ≠ '\n')), b, r)
            | Option.none =>
                if startsClose rem = true then
                  some (rest.takeWhile (fun c => decide (c ≠ '\n')), [], rem.drop 4)
                else Option.none) = some (n, b, r) := h
          have hreminf : ∀ x : List Char, x <:+: rem → x <:+: rest := by
            intro x hx
            exact hx.trans (List.suffix_cons '\n' rem).isInfix |>.trans
              (hd ▸ (List.dropWhile_suffix (fun c => decide (c ≠ '\n'))).isInfix)
          cases hsb : splitBody rem with
          | some p =>
              rcases p with ⟨b', r'⟩
              have hin : [':', ':', ':', '\n'] <:+: rem := by
                rw [splitBody_close_fence rem b' r' hsb]
                exact ⟨b', r', by simp⟩
              exact hsubinf _ (hreminf _ hin)
          | none =>
              rw [hsb] at h'
              by_cases hsc : startsClose rem = true
              · have hin : [':', ':', ':', '\n'] <:+: rem := by
                  have htake : rem.take 4 = [':', ':', ':', '\n'] := by
                    simpa [startsClose] using hsc
                  exact ⟨[], rem.drop 4, by rw [List.nil_append, ← htake, List.take_append_drop]⟩
                exact hsubinf _ (hreminf _ hin)
              · rw [if_neg hsc] at h'
                simp at h'

theorem matchBlockAt_none_of_no_close (s : List Char)
    (h : ¬ [':', ':', ':', '\n'] <:+: s) : matchBlockAt s = Option.none := by
  cases hm : matchBlockAt s with
  | none => rfl
  | some t =>
      rcases t with ⟨n, b, r⟩
      exact absurd (matchBlockAt_close_fence s n b r hm) h

theorem preEncodeLoop_no_close (enc : List Char → List Char) :
    ∀ (f : Nat) (ls : Bool) (s : List Char),
      ¬ [':', ':', ':', '\n'] <:+: s → preEncodeLoop enc f ls s = s := by
  intro f
  induction f with
  | zero => intro ls s _; rfl
  | succ f ih =>
      intro ls s hinf
      match s with
      | [] => rfl
      | c :: rest =>
          have hm : matchBlockAt (c :: rest) = Option.none :=
            matchBlockAt_none_of_no_close _ hinf
          have hrest : ¬ [':', ':', ':', '\n'] <:+: rest := fun hx =>
            hinf (hx.trans (List.suffix_cons c rest).isInfix)
          rw [preEncodeLoop, hm, ite_self]
          show c :: preEncodeLoop enc f (decide (c = '\n')) rest = c :: rest
          rw [ih _ rest hrest]

theorem pairsOk_tail (x : Char) (xs : List Char) (h : pairsOk (x :: xs) = true) :
    pairsOk xs = true := by
  cases xs with
  | nil => rfl
  | cons y rest =>
      rw [pairsOk, Bool.and_eq_true] at h
      exact h.2

theorem pairsOk_no_colon_nl :
    ∀ (u s v : List Char), pairsOk s = true → s ≠ u ++ ':' :: '\n' :: v := by
  intro u
  induction u with
  | nil =>
      intro s v h heq
      subst heq
      simp [pairsOk] at h
  | cons x u ih =>
      intro s v h heq
      subst heq
      exact ih _ v (pairsOk_tail x _ h) rfl

theorem pairsOk_no_close (s : List Char) (h : pairsOk s = true) :
    ¬ [':', ':', ':', '\n'] <:+: s := by
  rintro ⟨u, v, huv⟩
  exact pairsOk_no_colon_nl (u ++ [':', ':']) s v h (by rw [← huv]; simp)

theorem pairsOk_nl_cons (rest : List Char) (h : pairsOk rest = true) :
    pairsOk ('\n' :: rest) = true := by
  cases rest with
  | nil => rfl
  | cons y r2 =>
      rw [pairsOk]
      simp [h]

theorem pairsOk_chunk_cons (l : List Char) (rest : List Char)
    (hl : ∀ c ∈ l, c ≠ '\n') (hlast : l.getLast? ≠ some ':')
    (hrest : pairsOk rest = true) : pairsOk (l ++ '\n' :: rest) = true := by
  induction l with
  | nil => exact pairsOk_nl_cons rest hrest
  | cons a ltail ih =>
      cases hlt : ltail with
      | nil =>
          have ha : a ≠ ':' := by
            subst hlt
            simpa using hlast
          show pairsOk (a :: '\n' :: rest) = true
          rw [pairsOk]
          simp [ha, pairsOk_nl_cons rest hrest]
      | cons b lrest =>
          subst hlt
          show pairsOk (a :: (b :: lrest ++ '\n' :: rest)) = true
          rw [show (b :: lrest ++ '\n' :: rest : List Char) =
            b :: (lrest ++ '\n' :: rest) from rfl, pairsOk]
          have hb : b ≠ '\n' := hl b (by simp)
          have hih : pairsOk (b :: lrest ++ '\n' :: rest) = true := by
            exact ih (fun c hc => hl c (by simp [hc]))
              (by simpa [List.getLast?_cons_cons] using hlast)
          simp only [Bool.and_eq_true, Bool.not_eq_true']
          constructor
          · simp [hb]
          · exact hih

theorem splitNl_bodyColon (bls : List (List Char)) (h : ∀ l ∈ bls, ∀ c ∈ l, c ≠ '\n') :
    splitNl (bodyOf bls ++ [':', ':', ':']) = bls ++ [[':', ':', ':']] := by
  induction bls with
  | nil => rfl
  | cons l bls ih =>
      rw [bodyOf_cons, List.append_assoc, List.cons_append,
        splitNl_append_cons l _ (h l (by simp)),
        ih (fun l' hl' => h l' (by simp [hl']))]
      rfl

theorem groupParas_nonempty (ls : List (List Char)) (f : Nat)
    (h : ∀ l ∈ ls, l ≠ []) (hne : ls ≠ []) :
    groupParas (f + 1) ls = [joinNl ls] := by
  match ls with
  | [] => exact absurd rfl hne
  | l :: rest =>
      rw [groupParas]
      have hl : l.isEmpty = false := by
        cases hl0 : l with
        | nil => exact absurd hl0 (h l (by simp))
        | cons a b => rfl
      rw [hl]
      simp only [Bool.false_eq_true, if_false]
      rw [List.takeWhile_eq_self_iff.2 (fun x hx => by
          cases hx0 : x with
          | nil => exact absurd hx0 (h x hx)
          | cons a b => rfl),
        List.dropWhile_eq_nil_iff.2 (fun x hx => by
          cases hx0 : x with
          | nil => exact absurd hx0 (h x hx)
          | cons a b => rfl),
        groupParas_nil]

theorem joinNl_cons2 (x y : List Char) (rest : List (List Char)) :
    joinNl (x :: y :: rest) = x ++ '\n' :: joinNl (y :: rest) := rfl

theorem joinNl_block (hd : List Char) (bls : List (List Char)) :
    joinNl (hd :: (bls ++ [[':', ':', ':']])) = hd ++ '\n' :: (bodyOf bls ++ [':', ':', ':']) := by
  induction bls generalizing hd with
  | nil => rfl
  | cons l bls ih =>
      show joinNl (hd :: l :: (bls ++ [[':', ':', ':']])) = _
      rw [joinNl_cons2, ih l, bodyOf_cons]
      simp [List.append_assoc]

theorem trimEnd_colonEnd (X : List Char) :
    trimEnd ⟨X ++ [':', ':', ':']⟩ = ⟨X ++ [':', ':', ':']⟩ := by
  rw [trimEnd]
  congr 1
  show ((X ++ [':', ':', ':']).reverse.dropWhile isWS).reverse = X ++ [':', ':', ':']
  rw [List.reverse_append]
  show (List.dropWhile isWS (':' :: ':' :: ':' :: X.reverse)).reverse = _
  rw [List.dropWhile_cons_of_neg (by decide)]
  simp

theorem parseEncodedLine_multiline (name' B : List Char)
    (hn' : ∀ c ∈ name', isWS c = false) :
    parseEncodedLine (':' :: ':' :: ':' :: ' ' :: (name' ++ '\n' :: B)) = Option.none := by
  simp only [parseEncodedLine,
    takeWhile_all_append (fun c => !(isWS c)) name' '\n' B
      (fun c hc => by simp [hn' c hc]) (by decide),
    dropWhile_all_append (fun c => !(isWS c)) name' '\n' B
      (fun c hc => by simp [hn' c hc]) (by decide)]
  by_cases hne : name'.isEmpty = true
  · rw [if_pos hne]
  · rw [if_neg hne]
    rfl

theorem decodeLineWith_id (dec : List Char → List Char) (l : List Char)
    (h : (parseEncodedLine l).isSome = false) :
    decodeLineWith dec l = l := by
  rw [decodeLineWith]
  cases hp : parseEncodedLine l with
  | none => rfl
  | some p =>
      rw [hp] at h
      simp at h

theorem getLast_opt_mem (l : List Char) (c : Char) (h : l.getLast? = some c) : c ∈ l := by
  induction l with
  | nil => simp at h
  | cons a rest ih =>
      cases rest with
      | nil =>
          have ha : a = c := by simpa using h
          simp [ha]
      | cons b r =>
          rw [List.getLast?_cons_cons] at h
          exact List.mem_cons_of_mem a (ih h)

theorem bodyOf_mem (bls : List (List Char)) (c : Char) (h : c ∈ bodyOf bls) :
    c = '\n' ∨ ∃ l ∈ bls, c ∈ l := by
  induction bls with
  | nil => simp [bodyOf] at h
  | cons l bls ih =>
      rw [bodyOf_cons] at h
      rcases List.mem_append.1 h with hc | hc
      · exact Or.inr ⟨l, by simp, hc⟩
      · rcases List.mem_cons.1 hc with rfl | hc
        · exact Or.inl rfl
        · rcases ih hc with h1 | ⟨l', hl', hcl'⟩
          · exact Or.inl h1
          · exact Or.inr ⟨l', by simp [hl'], hcl'⟩

theorem pairsOk_bodyFence (bls : List String)
    (hnl : ∀ l ∈ bls, ∀ c ∈ l.data, c ≠ '\n')
    (hcol : ∀ l ∈ bls, ∀ c ∈ l.data, c ≠ ':') :
    pairsOk (bodyOf (bls.map String.data) ++ [':', ':', ':']) = true := by
  induction bls with
  | nil => decide
  | cons t bls ih =>
      rw [List.map_cons, bodyOf_cons, List.append_assoc, List.cons_append]
      refine pairsOk_chunk_cons t.data _ (fun c hc => hnl t (by simp) c hc) ?_ ?_
      · intro hlast
        exact hcol t (by simp) ':' (getLast_opt_mem t.data ':' hlast) rfl
      · exact ih (fun l hl => hnl l (by simp [hl])) (fun l hl => hcol l (by simp [hl]))

theorem map_decodeLineWith_id (dec : List Char → List Char) (ls : List (List Char))
    (h : ∀ l ∈ ls, (parseEncodedLine l).isSome = false) :
    ls.map (decodeLineWith dec) = ls := by
  induction ls with
  | nil => rfl
  | cons l ls ih =>
      rw [List.map_cons, decodeLineWith_id dec l (h l (by simp)),
        ih (fun l' hl' => h l' (by simp [hl']))]

theorem roundTrip_trimmedBlock (plugins : String → Option Unit)
    (name : String) (bls : List String)
    (hn : goodName name)
    (hnsp : ∀ c ∈ name.data, isSpecialChar c = false ∧ c ≠ ':')
    (hb : goodBodyLines bls)
    (hb2 : ∀ l ∈ bls, l.data ≠ [] ∧ (parseEncodedLine l.data).isSome = false ∧
      ∀ c ∈ l.data, isSpecialChar c = false ∧ c ≠ ':') :
    mdRoundTrip plugins ⟨':' :: ':' :: ':' :: ' ' :: name.data ++
      '\n' :: (bodyOf (bls.map String.data) ++ [':', ':', ':'])⟩ =
    ⟨':' :: ':' :: ':' :: ' ' :: name.data ++
      '\n' :: (bodyOf (bls.map String.data) ++ [':', ':', ':'])⟩ := by
  have hnamenl : ∀ c ∈ name.data, c ≠ '\n' := fun c hc => ne_nl_of_not_ws c (hn.2 c hc)
  have hbodynl : ∀ l ∈ bls.map String.data, ∀ c ∈ l, c ≠ '\n' := by
    intro l hl c hc
    rcases List.mem_map.1 hl with ⟨t, ht, rfl⟩
    exact ((hb t ht).1 c hc).1
  have hhd : ∀ c ∈ (':' :: ':' :: ':' :: ' ' :: name.data), c ≠ '\n' := by
    intro c hc
    rcases List.mem_cons.1 hc with rfl | hc
    · decide
    rcases List.mem_cons.1 hc with rfl | hc
    · decide
    rcases List.mem_cons.1 hc with rfl | hc
    · decide
    rcases List.mem_cons.1 hc with rfl | hc
    · decide
    exact hnamenl c hc
  have hpairs : pairsOk (':' :: ':' :: ':' :: ' ' :: name.data ++
      '\n' :: (bodyOf (bls.map String.data) ++ [':', ':', ':'])) = true := by
    refine pairsOk_chunk_cons (':' :: ':' :: ':' :: ' ' :: name.data) _ hhd ?_ ?_
    · cases hnd : name.data with
      | nil => exact absurd hnd hn.1
      | cons n0 nr =>
          rw [List.getLast?_cons_cons, List.getLast?_cons_cons, List.getLast?_cons_cons,
            List.getLast?_cons_cons]
          intro hlast
          have hmem : ':' ∈ name.data := by
            rw [hnd]
            exact getLast_opt_mem (n0 :: nr) ':' hlast
          exact (hnsp ':' hmem).2 rfl
    · exact pairsOk_bodyFence bls (fun l hl c hc => ((hb l hl).1 c hc).1)
        (fun l hl c hc => ((hb2 l hl).2.2 c hc).2)
  have hnoclose := pairsOk_no_close _ hpairs
  have hpre : preEncode ⟨':' :: ':' :: ':' :: ' ' :: name.data ++
      '\n' :: (bodyOf (bls.map String.data) ++ [':', ':', ':'])⟩ =
      ⟨':' :: ':' :: ':' :: ' ' :: name.data ++
        '\n' :: (bodyOf (bls.map String.data) ++ [':', ':', ':'])⟩ := by
    rw [preEncode]
    congr 1
    exact preEncodeLoop_no_close _ _ _ _ hnoclose
  have hsplit : splitNl (':' :: ':' :: ':' :: ' ' :: name.data ++
      '\n' :: (bodyOf (bls.map String.data) ++ [':', ':', ':'])) =
      (':' :: ':' :: ':' :: ' ' :: name.data) ::
        (bls.map String.data ++ [[':', ':', ':']]) := by
    rw [splitNl_append_cons (':' :: ':' :: ':' :: ' ' :: name.data) _ hhd,
      splitNl_bodyColon _ hbodynl]
  have hall : ∀ l ∈ (':' :: ':' :: ':' :: ' ' :: name.data) ::
      (bls.map String.data ++ [[':', ':', ':']]), l ≠ [] := by
    intro l hl
    rcases List.mem_cons.1 hl with rfl | hl
    · simp
    rcases List.mem_append.1 hl with hl | hl
    · rcases List.mem_map.1 hl with ⟨t, ht, rfl⟩
      exact (hb2 t ht).1
    · rcases List.mem_singleton.1 hl with rfl
      simp
  have hMsp : ∀ c ∈ (':' :: ':' :: ':' :: ' ' :: name.data ++
      '\n' :: (bodyOf (bls.map String.data) ++ [':', ':', ':'])), isSpecialChar c = false := by
    intro c hc
    simp only [List.cons_append, List.mem_cons, List.mem_append, List.mem_singleton,
      List.not_mem_nil, or_false] at hc
    rcases hc with rfl | rfl | rfl | rfl | hc | rfl | hc | rfl | rfl | rfl
    · decide
    · decide
    · decide
    · decide
    · exact (hnsp c hc).1
    · decide
    · rcases bodyOf_mem _ c hc with rfl | ⟨l, hl, hcl⟩
      · decide
      · rcases List.mem_map.1 hl with ⟨t, ht, rfl⟩
        exact ((hb2 t ht).2.2 c hcl).1
    · decide
    · decide
    · decide
  have hlinesps : ∀ l ∈ (':' :: ':' :: ':' :: ' ' :: name.data) ::
      (bls.map String.data ++ [[':', ':', ':']]), (parseEncodedLine l).isSome = false := by
    intro l hl
    rcases List.mem_cons.1 hl with rfl | hl
    · rw [parseEncodedLine_header name.data hn.2]
      rfl
    rcases List.mem_append.1 hl with hl | hl
    · rcases List.mem_map.1 hl with ⟨t, ht, rfl⟩
      exact (hb2 t ht).2.1
    · rcases List.mem_singleton.1 hl with rfl
      rfl
  have hpel : parseEncodedLine ((⟨':' :: ':' :: ':' :: ' ' :: name.data ++
      '\n' :: (bodyOf (bls.map String.data) ++ [':', ':', ':'])⟩ : String)).data =
      Option.none :=
    parseEncodedLine_multiline name.data _ hn.2
  have hdoc : markdownToSlate plugins ⟨':' :: ':' :: ':' :: ' ' :: name.data ++
      '\n' :: (bodyOf (bls.map String.data) ++ [':', ':', ':'])⟩ =
      ⟨[.para [.textNode [⟨⟨':' :: ':' :: ':' :: ' ' :: name.data ++
        '\n' :: (bodyOf (bls.map String.data) ++ [':', ':', ':'])⟩,
        MarkSet.none⟩]]]⟩ := by
    rw [markdownToSlate, markdownToRemark, hpre, parseMd]
    rw [show ((⟨':' :: ':' :: ':' :: ' ' :: name.data ++
      '\n' :: (bodyOf (bls.map String.data) ++ [':', ':', ':'])⟩ : String)).data =
      ':' :: ':' :: ':' :: ' ' :: name.data ++
        '\n' :: (bodyOf (bls.map String.data) ++ [':', ':', ':']) from rfl]
    rw [hsplit, groupParas_nonempty _ _ hall (List.cons_ne_nil _ _),
      List.map_cons, List.map_nil, joinNl_block]
    rw [parseInline_text _ (by simp) hMsp]
    rw [show mergeTexts [MdInline.text ⟨':' :: ':' :: ':' :: ' ' :: name.data ++
      '\n' :: (bodyOf (bls.map String.data) ++ [':', ':', ':'])⟩] =
      [MdInline.text ⟨':' :: ':' :: ':' :: ' ' :: name.data ++
        '\n' :: (bodyOf (bls.map String.data) ++ [':', ':', ':'])⟩] from rfl]
    rw [shortcodePass, List.map_cons, List.map_nil, shortcodeBlock, hpel]
    rfl
  have hserial : slateToMarkdown plugins
      ⟨[.para [.textNode [⟨⟨':' :: ':' :: ':' :: ' ' :: name.data ++
        '\n' :: (bodyOf (bls.map String.data) ++ [':', ':', ':'])⟩,
        MarkSet.none⟩]]]⟩ =
      ⟨':' :: ':' :: ':' :: ' ' :: name.data ++
        '\n' :: (bodyOf (bls.map String.data) ++ [':', ':', ':'])⟩ := by
    rw [slateToMarkdown, remarkToMarkdown]
    rw [show slateToRemark plugins ⟨[.para [.textNode [⟨⟨':' :: ':' :: ':' :: ' ' ::
        name.data ++ '\n' :: (bodyOf (bls.map String.data) ++ [':', ':', ':'])⟩,
        MarkSet.none⟩]]]⟩ =
      ⟨[.paragraph [.text ⟨':' :: ':' :: ':' :: ' ' :: name.data ++
        '\n' :: (bodyOf (bls.map String.data) ++ [':', ':', ':'])⟩]]⟩ from rfl]
    rw [show (some (⟨[.paragraph [.text ⟨':' :: ':' :: ':' :: ' ' :: name.data ++
        '\n' :: (bodyOf (bls.map String.data) ++ [':', ':', ':'])⟩]]⟩ : Mdast)).getD
        emptyMdast =
      ⟨[.paragraph [.text ⟨':' :: ':' :: ':' :: ' ' :: name.data ++
        '\n' :: (bodyOf (bls.map String.data) ++ [':', ':', ':'])⟩]]⟩ from rfl]
    have hstr : stringifyMdast ⟨[.paragraph [.text ⟨':' :: ':' :: ':' :: ' ' :: name.data ++
        '\n' :: (bodyOf (bls.map String.data) ++ [':', ':', ':'])⟩]]⟩ =
      ⟨':' :: ':' :: ':' :: ' ' :: name.data ++
        '\n' :: (bodyOf (bls.map String.data) ++ [':', ':', ':'])⟩ := by
      rw [stringifyMdast]
      congr 1
      show joinNl2 [((⟨':' :: ':' :: ':' :: ' ' :: name.data ++
        '\n' :: (bodyOf (bls.map String.data) ++ [':', ':', ':'])⟩ : String) ++ "").data] =
        ':' :: ':' :: ':' :: ' ' :: name.data ++
          '\n' :: (bodyOf (bls.map String.data) ++ [':', ':', ':'])
      rw [joinNl2, String.data_append]
      simp
    rw [hstr, postDecode]
    rw [show ((⟨':' :: ':' :: ':' :: ' ' :: name.data ++
      '\n' :: (bodyOf (bls.map String.data) ++ [':', ':', ':'])⟩ : String)).data =
      ':' :: ':' :: ':' :: ' ' :: name.data ++
        '\n' :: (bodyOf (bls.map String.data) ++ [':', ':', ':']) from rfl]
    rw [hsplit, map_decodeLineWith_id _ _ hlinesps, joinNl_block]
    have hassoc : (⟨(':' :: ':' :: ':' :: ' ' :: name.data) ++
        '\n' :: (bodyOf (bls.map String.data) ++ [':', ':', ':'])⟩ : String) =
      ⟨((':' :: ':' :: ':' :: ' ' :: name.data) ++
        '\n' :: bodyOf (bls.map String.data)) ++ [':', ':', ':']⟩ := by
      congr 1
      simp [List.append_assoc]
    rw [hassoc, trimEnd_colonEnd]
  rw [mdRoundTrip, hdoc]
  exact hserial

/-- C5 (counterexample): the markup-to-richdoc-to-markup cycle
`f = slateToMarkdown ∘ markdownToSlate` is not idempotent on every
markup string.  For the well-formed component block whose body line
`::: t AAAA` itself matches the serialize-side encoded pattern
`^::: (\S+) (\S*)$`, the first pass only trims the trailing newline,
but the second pass spuriously base64-decodes that body line (the
post-pass of index.js line 159 rewrites it to a decoded block),
so `f (f m) ≠ f m`. -/
theorem c5_counterexample :
    mdRoundTrip noPlugins (mdRoundTrip noPlugins "::: n\n::: t AAAA\n:::\n") ≠
      mdRoundTrip noPlugins "::: n\n::: t AAAA\n:::\n" ∧
    mdRoundTrip noPlugins "::: n\n::: t AAAA\n:::\n" = "::: n\n::: t AAAA\n:::" ∧
    mdRoundTrip noPlugins "::: n\n::: t AAAA\n:::" =
      "::: n\n::: t\n\x00\x00\x00:::\n\n:::" := by
  refine ⟨?_, ?_, ?_⟩ <;> decide

/-- C5 (amended): the cycle `f = slateToMarkdown ∘ markdownToSlate`
reaches a fixed point after one pass on every single well-formed
component block with an alphanumeric tag name, a nonempty body of
nonempty alphanumeric lines that do not themselves match the
single-line encoded pattern, and an unrecognized tag:
`f (f (blockStr name bls)) = f (blockStr name bls)`.  The
alphanumeric restriction confines the block's serialized form, which
the second pass re-parses as raw markup, to the fragment the
commonmark grammar reads back as one plain paragraph: such lines can
start no heading, list item, block quote, thematic break, setext
underline or fenced/indented code, carry no inline markup, no
backslash escape and no entity reference, and cannot re-trigger
either component-block regex. -/
theorem c5_block_idempotent (plugins : String → Option Unit)
    (name : String) (bls : List String)
    (hn : goodName name)
    (hna : ∀ c ∈ name.data, c.isAlphanum = true)
    (hb : goodBodyLines bls) (_hbne : bls ≠ [])
    (hb2 : ∀ l ∈ bls, l.data ≠ [] ∧ (parseEncodedLine l.data).isSome = false ∧
      ∀ c ∈ l.data, c.isAlphanum = true)
    (hlook : plugins name = Option.none) :
    mdRoundTrip plugins (mdRoundTrip plugins (blockStr name bls)) =
      mdRoundTrip plugins (blockStr name bls) := by
  have hnsp : ∀ c ∈ name.data, isSpecialChar c = false ∧ c ≠ ':' :=
    fun c hc => ⟨alnum_not_special c (hna c hc), alnum_ne_colon c (hna c hc)⟩
  have hb2' : ∀ l ∈ bls, l.data ≠ [] ∧ (parseEncodedLine l.data).isSome = false ∧
      ∀ c ∈ l.data, isSpecialChar c = false ∧ c ≠ ':' :=
    fun l hl => ⟨(hb2 l hl).1, (hb2 l hl).2.1,
      fun c hc => ⟨alnum_not_special c ((hb2 l hl).2.2 c hc),
        alnum_ne_colon c ((hb2 l hl).2.2 c hc)⟩⟩
  have h1 : mdRoundTrip plugins (blockStr name bls) =
      ⟨':' :: ':' :: ':' :: ' ' :: name.data ++
        '\n' :: (bodyOf (bls.map String.data) ++ [':', ':', ':'])⟩ := by
    rw [mdRoundTrip,
      markdownToSlate_block plugins name bls hn (fun c hc => (hnsp c hc).1) hb hlook]
    exact slateToMarkdown_encDoc plugins name bls hn hb
  rw [h1]
  exact roundTrip_trimmedBlock plugins name bls hn hnsp hb hb2'

/-- C5 (witness): the one-pass fixed point at the concrete block
`::: n / a / :::` with the empty plugin registry. -/
theorem c5_block_idempotent_witness :
    mdRoundTrip noPlugins (mdRoundTrip noPlugins (blockStr "n" ["a"])) =
      mdRoundTrip noPlugins (blockStr "n" ["a"]) :=
  c5_block_idempotent noPlugins "n" ["a"] (by decide) (by decide) (by decide) (by decide)
    (by decide) rfl

/-- C1: for every canonical markup string in the spec's corpus —
inline code containing an HTML-entity-escaped tag, nested non-text
children inside mark nodes, inline images, and literal HTML with
markup-significant characters — the composition
`slateToMarkdown (markdownToSlate m)` returns `m` unchanged. -/
theorem c1_roundtrip_corpus :
    mdRoundTrip noPlugins "<code>&lt;div&gt;</code>" = "<code>&lt;div&gt;</code>" ∧
    mdRoundTrip noPlugins "**a[b](c)d**" = "**a[b](c)d**" ∧
    mdRoundTrip noPlugins "_`a`_" = "_`a`_" ∧
    mdRoundTrip noPlugins "_`a`b_" = "_`a`b_" ∧
    mdRoundTrip noPlugins "a ![b](c)" = "a ![b](c)" ∧
    mdRoundTrip noPlugins "<span>*</span>" = "<span>*</span>" := by
  refine ⟨?_, ?_, ?_, ?_, ?_, ?_⟩ <;> decide

/-- C2: every text node of the rich-document model returned by
`markdownToSlate` is canonical — no two adjacent leaves have
identical mark sets — and in particular `**a ~~b~~~~c~~**` yields a
text node with exactly the leaves `a ` (bold) and `bc`
(bold + strikethrough). -/
theorem c2_leaves_canonical :
    (∀ (plugins : String → Option Unit) (md : String),
      docCanonical (markdownToSlate plugins md) = true) ∧
    markdownToSlate noPlugins "**a ~~b~~~~c~~**" =
      ⟨[.para [.textNode
        [⟨"a ", ⟨true, false, false, false⟩⟩,
         ⟨"bc", ⟨true, false, true, false⟩⟩]]]⟩ := by
  constructor
  · intro plugins md
    exact slateFromMdast_canonical _
  · decide

/-- C3: the markup-richdoc-markup cycle normalizes nested mark
structures: `**a ~~b~~~~c~~**` serializes to `**a** ~~**bc**~~`,
`**a _b_ c**` to `**a** _**b**_ **c**`, and `**a**b**c**`
round-trips unchanged. -/
theorem c3_nested_marks :
    mdRoundTrip noPlugins "**a ~~b~~~~c~~**" = "**a** ~~**bc**~~" ∧
    mdRoundTrip noPlugins "**a _b_ c**" = "**a** _**b**_ **c**" ∧
    mdRoundTrip noPlugins "**a**b**c**" = "**a**b**c**" := by
  refine ⟨?_, ?_, ?_⟩ <;> decide

/-- C4: `slateToMarkdown` pushes the leading or trailing whitespace
of a styled leaf outside the emphasis delimiters: a bold leaf
`foo ` followed by a plain leaf `bar` serializes to `**foo** bar`,
and a plain `foo` followed by a bold ` bar` to `foo **bar**`. -/
theorem c4_whitespace_boundary :
    slateToMarkdown noPlugins
      ⟨[.para [.textNode [⟨"foo ", ⟨true, false, false, false⟩⟩],
               .textNode [⟨"bar", MarkSet.none⟩]]]⟩ = "**foo** bar" ∧
    slateToMarkdown noPlugins
      ⟨[.para [.textNode [⟨"foo", MarkSet.none⟩],
               .textNode [⟨" bar", ⟨true, false, false, false⟩⟩]]]⟩ = "foo **bar**" := by
  constructor <;> decide

end MdSer
